import Mathlib

/-!
# Waste-management demo application

A shallow embedding of `src/index.js`: the `Store` accessor over `localStorage`,
the seed initializer, the session `State`, the domain operations of `UI`
(register, login, logout, addBooking, pay, capture, raiseTicket, completeModule)
the chart renderer and the KPI renderer.

Conventions of the embedding.

* JavaScript numbers are doubles.  Amounts and reward points always have an integer
  value; they are embedded as `Num`: the exact integer value of the double, an infinity,
  `NaN`, or `null` (the stored form of a non-finite number).  Every arithmetic step on
  them (`parseInt`, `amount / 100`, `+`) rounds to the nearest double, ties to even, as the
  source's arithmetic does.  Capture weights and the numbers of JSON texts are embedded as
  `JsNum`: the exact rational value of the double, an infinity or `NaN`.
* Zero has no sign in the embedding: `-0` and `0` are the same number, as they are for
  every test and every text the source makes of them.
* Identifiers and time stamps are clock readings, far inside the range where doubles are
  exact; they are embedded as `Int`.
* The `NaN` result of `parseInt` is the `none` of an `Option`.
* Every reading of `Date.now()` inside one operation is an input: `now k` is the
  `k`-th reading made by the operation.
* Strings are sequences of Unicode characters.  The host's `JSON.parse` and
  `JSON.stringify` are a parameter of the store (`JsonApi`); `jsonLite` is a concrete
  model of them over the values `JSVal`.
* DOM form fields are string inputs of the operation; DOM output (rendered
  markup, alerts) does not feed back into the store and is kept only as the
  `Outcome` of the operation.
-/

namespace WasteApp

/-! ## Host string primitives -/

/-- ECMAScript `WhiteSpace` and `LineTerminator` code points: the characters removed by
`String.prototype.trim` and skipped at the start of `parseInt` and `parseFloat`. -/
def isStrWhiteSpace (c : Char) : Bool :=
  decide (c.toNat ∈ [0x09, 0x0A, 0x0B, 0x0C, 0x0D, 0x20, 0xA0, 0x1680, 0x2028, 0x2029,
    0x202F, 0x205F, 0x3000, 0xFEFF]) || (decide (0x2000 ≤ c.toNat) && decide (c.toNat ≤ 0x200A))

/-- The characters of `s` with leading and trailing white space removed. -/
def trimChars (cs : List Char) : List Char :=
  ((cs.dropWhile isStrWhiteSpace).reverse.dropWhile isStrWhiteSpace).reverse

/-- `String.prototype.trim`. -/
def trim (s : String) : String := String.mk (trimChars s.data)

/-- JavaScript `a || b` on strings: the empty string is falsy. -/
def strOr (a b : String) : String := if a = "" then b else a

/-- Value of a decimal digit character. -/
def digitVal (c : Char) : Nat := c.toNat - 48

/-- Value of a string of decimal digits, most significant first. -/
def digitsVal (ds : List Char) : Nat := ds.foldl (fun acc c => 10 * acc + digitVal c) 0

/-! ## Double arithmetic -/

/-- Position of the highest set bit, by halving at most `fuel` times. -/
def ilog2Aux : Nat → Nat → Nat
  | 0, _ => 0
  | fuel + 1, n => if n < 2 then 0 else ilog2Aux fuel (n / 2) + 1

/-- The integer part of the binary logarithm of `n` (0 for `n = 0`). -/
def ilog2 (n : Nat) : Nat := ilog2Aux n n

/-- Round `n / d` to the nearest natural number, ties to the even one. -/
def roundHalfEven (n d : Nat) : Nat :=
  if 2 * (n % d) > d ∨ (2 * (n % d) = d ∧ (n / d) % 2 = 1) then n / d + 1 else n / d

/-- Numerator and denominator of `p / q / 2 ^ e`. -/
def scaleFrac (p q : Nat) (e : Int) : Nat × Nat :=
  if 0 ≤ e then (p, q * 2 ^ e.toNat) else (p * 2 ^ (-e).toNat, q)

/-- The binary exponent `e` at which the doubles around `p / q` are spaced: `p / q / 2 ^ e`
lies in `[2 ^ 52, 2 ^ 53)`, except that `e` is never below -1074 (subnormal numbers). -/
def doubleExp (p q : Nat) : Int :=
  let e0 : Int := max ((ilog2 p : Int) - (ilog2 q : Int) - 52) (-1074)
  if (scaleFrac p q e0).1 / (scaleFrac p q e0).2 < 2 ^ 52 ∧ -1074 < e0 then e0 - 1 else e0

/-- The double nearest to the fraction `p / q` (round to nearest, ties to even), as a pair
`(m, e)` standing for `m * 2 ^ e`, before the overflow check. -/
def nearestDouble (p q : Nat) : Nat × Int :=
  (roundHalfEven (scaleFrac p q (doubleExp p q)).1 (scaleFrac p q (doubleExp p q)).2, doubleExp p q)

/-- The least power of two beyond the doubles: a value that rounds to it or beyond is an
infinity. -/
def doubleLimit : Nat := 2 ^ 1024

/-- Whether `m * 2 ^ e` is beyond the largest double, so that the result is an infinity. -/
def overflows (m : Nat) (e : Int) : Bool :=
  decide (0 ≤ e) && decide (doubleLimit ≤ m * 2 ^ e.toNat)

/-- `Math.floor` of `m * 2 ^ e`, negated first when `neg`. -/
def floorScaled (neg : Bool) (m : Nat) (e : Int) : Int :=
  if 0 ≤ e then (if neg then -(m * 2 ^ e.toNat : Int) else (m * 2 ^ e.toNat : Int))
  else Int.fdiv (if neg then -(m : Int) else (m : Int)) (2 ^ (-e).toNat)

/-- `Math.floor(a / 100)` for a finite double with integer value `a`: the quotient is
rounded to a double before the floor is taken. -/
def floorDiv100 (a : Int) : Int :=
  floorScaled (decide (a < 0)) (nearestDouble a.natAbs 100).1 (nearestDouble a.natAbs 100).2

/-- The integer value of `m * 2 ^ e` when that is an integer. -/
def intScaled (m : Nat) (e : Int) : Nat :=
  if 0 ≤ e then m * 2 ^ e.toNat else m / 2 ^ (-e).toNat

/-- The double nearest to the natural number `n`, which is again a natural number. -/
def roundNat (n : Nat) : Nat := intScaled (nearestDouble n 1).1 (nearestDouble n 1).2

/-- The rational `m * 2 ^ e`, negated when `neg`. -/
def dblValue (neg : Bool) (m : Nat) (e : Int) : ℚ :=
  if 0 ≤ e then (((if neg then -(m : Int) else (m : Int)) * 2 ^ e.toNat : Int) : ℚ)
  else mkRat (if neg then -(m : Int) else (m : Int)) (2 ^ (-e).toNat)

/-- A JavaScript number: `NaN`, an infinity, or a finite double given by its exact rational
value. -/
inductive JsNum where
  | nan
  | inf (negative : Bool)
  | fin (q : ℚ)
deriving DecidableEq, Repr

instance (n : Nat) : OfNat JsNum n := ⟨JsNum.fin n⟩

/-- JavaScript `!n` on a number: `NaN` and zero are falsy. -/
def JsNum.isFalsy : JsNum → Bool
  | .nan => true
  | .inf _ => false
  | .fin q => decide (q = 0)

/-- The value a number has after a trip through the store: `JSON.stringify` writes a
non-finite number as `null` (`none`). -/
def JsNum.stored : JsNum → Option ℚ
  | .fin q => some q
  | _ => none

/-- The double nearest to `p / q`, negated when `neg`; an infinity beyond the largest
double. -/
def roundFrac (neg : Bool) (p q : Nat) : JsNum :=
  if overflows (nearestDouble p q).1 (nearestDouble p q).2 then .inf neg
  else .fin (dblValue neg (nearestDouble p q).1 (nearestDouble p q).2)

/-- The double nearest to the rational `x`. -/
def roundQ (x : ℚ) : JsNum := roundFrac (decide (x < 0)) x.num.natAbs x.den

/-- The exact value `digits * 10 ^ t` of a decimal literal. -/
def decimalValue (digits : Nat) (t : Int) : ℚ :=
  if 0 ≤ t then ((digits * 10 ^ t.toNat : Nat) : ℚ) else mkRat digits (10 ^ (-t).toNat)

/-- The value of a numeric field or expression whose numbers have integer values: `NaN`,
`null`, an infinity, or the exact integer value of a finite double. -/
inductive Num where
  | nan
  | null
  | inf (negative : Bool)
  | fin (n : Int)
deriving DecidableEq, Repr

instance (n : Nat) : OfNat Num n := ⟨Num.fin n⟩

/-- JavaScript `!x`: `NaN`, `null` and zero are falsy. -/
def Num.isFalsy : Num → Bool
  | .nan => true
  | .null => true
  | .inf _ => false
  | .fin n => decide (n = 0)

/-- JavaScript `x || 0`. -/
def Num.orZero (x : Num) : Num := if x.isFalsy then 0 else x

/-- The value after a trip through the store: `JSON.stringify` writes `NaN` and the
infinities as `null`. -/
def Num.stored : Num → Num
  | .fin n => .fin n
  | _ => .null

/-- The integer a finite value stands for; `null` converts to 0, as in arithmetic. -/
def Num.toInt : Num → Int
  | .fin n => n
  | _ => 0

/-- Whether the value is a finite number. -/
def Num.isFinite : Num → Bool
  | .fin _ => true
  | _ => false

/-- The number as a `JsNum`, for conversion to text; `null` converts to 0. -/
def Num.toJsNum : Num → JsNum
  | .nan => .nan
  | .null => .fin 0
  | .inf b => .inf b
  | .fin n => .fin (n : ℚ)

/-- The double nearest to the integer `n` given by sign and magnitude. -/
def roundedInt (neg : Bool) (n : Nat) : Num :=
  if overflows (nearestDouble n 1).1 (nearestDouble n 1).2 then .inf neg
  else .fin (if neg then -(roundNat n : Int) else (roundNat n : Int))

/-- The double nearest to the integer `n`. -/
def roundInt (n : Int) : Num := roundedInt (decide (n < 0)) n.natAbs

/-- JavaScript `x + y` on numbers (`null` converts to 0): the exact sum of two finite
values is rounded to the nearest double. -/
def Num.add (x y : Num) : Num :=
  match x, y with
  | .nan, _ => .nan
  | _, .nan => .nan
  | .inf a, .inf b => if a = b then .inf a else .nan
  | .inf a, _ => .inf a
  | _, .inf b => .inf b
  | a, b => roundInt (a.toInt + b.toInt)

/-- `Math.floor(x / 100)`. -/
def Num.floorDiv100 : Num → Num
  | .nan => .nan
  | .null => 0
  | .inf b => .inf b
  | .fin a => .fin (WasteApp.floorDiv100 a)

/-- `parseInt(s, 10)`: skip leading white space, read an optional sign, then the longest
run of decimal digits, and give the double nearest to their value; `none` is `NaN` (no
digit found). -/
def parseInt (s : String) : Option Num :=
  let body := s.data.dropWhile isStrWhiteSpace
  let neg : Bool := body.head? == some '-'
  let rest := if body.head? == some '-' || body.head? == some '+' then body.tail else body
  let ds := rest.takeWhile Char.isDigit
  if ds.isEmpty then none
  else some (roundedInt neg (digitsVal ds))

/-- `parseFloat(s)`: skip leading white space, read an optional sign, then the longest
prefix that is `Infinity` or a decimal literal (digits, optional fraction, optional
exponent), and give the double nearest to its value; `nan` when there is none. -/
def parseFloat (s : String) : JsNum :=
  let body := s.data.dropWhile isStrWhiteSpace
  let neg : Bool := body.head? == some '-'
  let rest := if body.head? == some '-' || body.head? == some '+' then body.tail else body
  if "Infinity".data.isPrefixOf rest then .inf neg
  else
    let intDs := rest.takeWhile Char.isDigit
    let r1 := rest.dropWhile Char.isDigit
    let fracDs := if r1.head? == some '.' then r1.tail.takeWhile Char.isDigit else []
    let r2 := if r1.head? == some '.' then r1.tail.dropWhile Char.isDigit else r1
    if intDs.isEmpty && fracDs.isEmpty then .nan
    else
      let e1 := if r2.head? == some 'e' || r2.head? == some 'E' then r2.tail else []
      let eneg : Bool := e1.head? == some '-'
      let e2 := if e1.head? == some '-' || e1.head? == some '+' then e1.tail else e1
      let expDs := e2.takeWhile Char.isDigit
      let exp : Int := if eneg then -(digitsVal expDs : Int) else (digitsVal expDs : Int)
      let v := decimalValue (digitsVal (intDs ++ fracDs)) (exp - fracDs.length)
      roundFrac neg v.num.natAbs v.den

/-! ## Data model -/

/-- A record of the `users` collection. -/
structure User where
  id : Int
  name : String
  email : String
  role : String
  pass : String
  rewards : Num
deriving DecidableEq, Repr

/-- A record of the `bookings` collection. -/
structure Booking where
  id : Int
  uid : Int
  date : String
  type : String
  freq : String
  addr : String
  status : String
deriving DecidableEq, Repr

/-- A record of the `transactions` collection. -/
structure Transaction where
  id : Int
  uid : Int
  purpose : String
  amount : Num
  ts : Int
deriving DecidableEq, Repr

/-- A record of the `captures` collection. -/
structure Capture where
  id : Int
  uid : Int
  date : String
  type : String
  /-- The weight; `none` is `null`, the stored form of a non-finite number. -/
  kg : Option ℚ
deriving DecidableEq, Repr

/-- A record of the `notifications` collection. -/
structure Notification where
  id : Int
  uid : Int
  text : String
  ts : Int
deriving DecidableEq, Repr

/-- A record of the `tickets` collection. -/
structure Ticket where
  id : Int
  uid : Int
  text : String
  ts : Int
deriving DecidableEq, Repr

/-- A record of the `facilities` collection. -/
structure Facility where
  name : String
  type : String
  distance : String
deriving DecidableEq, Repr

/-- A record of the `training` collection. -/
structure TrainingModule where
  id : Int
  title : String
  mins : Int
  done : Bool
deriving DecidableEq, Repr

/-- The eight collections of a well-formed store, decoded: on such a store
`Store.read(key, [])` is the list under `key` and `Store.write(key, v)` replaces it. -/
structure Db where
  users : List User
  bookings : List Booking
  transactions : List Transaction
  captures : List Capture
  notifications : List Notification
  tickets : List Ticket
  facilities : List Facility
  training : List TrainingModule
deriving DecidableEq, Repr

/-- The store together with `State.user`, the session snapshot (`none` is `null`). -/
structure App where
  db : Db
  user : Option User
deriving DecidableEq, Repr

/-- How an operation ended. -/
inductive Outcome where
  /-- The operation ran to its last statement. -/
  | done
  /-- The operation returned after `alert(msg)`. -/
  | alert (msg : String)
  /-- The operation returned after showing an inline error message. -/
  | inlineError (msg : String)
  /-- The operation returned silently. -/
  | ignored
  /-- The operation stopped on a `TypeError` (property access on `null` or `undefined`). -/
  | fault
deriving DecidableEq, Repr

/-- In-place update of the element that `Array.prototype.find` returns: the first element
satisfying `p` is replaced by its image under `f`. -/
def updateFirst {α : Type} (p : α → Bool) (f : α → α) : List α → List α
  | [] => []
  | x :: xs => if p x then f x :: xs else x :: updateFirst p f xs

/-- Host formatting used inside notification texts. -/
structure Host where
  /-- The function `fmt`: `new Date(d).toLocaleDateString()`. -/
  fmt : String → String
  /-- Conversion of a number to text inside a template literal. -/
  showNum : JsNum → String

namespace UI

/-- `UI.notify(uid, text)`: append a notification stamped with the `k`-th and `k+1`-th
clock readings. -/
def notify (now : Nat → Int) (k : Nat) (uid : Int) (text : String) (db : Db) : Db :=
  { db with notifications := db.notifications ++ [{ id := now k, uid := uid, text := text, ts := now (k + 1) }] }

/-- `UI.register()` with the form fields `#regName`, `#regEmail`, `#regRole`, `#regPass`.
The closing `alert('Registered! ...')` is output only: a completed registration ends
`done`. -/
def register (now : Nat → Int) (regName regEmail regRole regPass : String) (s : App) :
    App × Outcome :=
  let name := trim regName
  let email := trim regEmail
  let role := regRole
  let pass := regPass
  if name = "" ∨ email = "" ∨ pass = "" then (s, .alert "Fill all fields")
  else
    let users := s.db.users
    if users.any (fun u => u.email == email) then (s, .alert "Email already exists")
    else
      let id := now 0
      ({ s with db := { s.db with users := users ++
          [{ id := id, name := name, email := email, role := role, pass := pass, rewards := 0 }] } },
        .done)

/-- `UI.login()` with the form fields `#loginEmail` and `#loginPass`. -/
def login (loginEmail loginPass : String) (s : App) : App × Outcome :=
  let email := trim loginEmail
  let pass := trim loginPass
  match s.db.users.find? (fun u => u.email == email && u.pass == pass) with
  | none => (s, .inlineError "Invalid credentials")
  | some user => ({ s with user := some user }, .done)

/-- `UI.logout()`: the session is cleared and the page reloaded. -/
def logout (s : App) : App × Outcome := ({ s with user := none }, .done)

/-- `UI.addBooking()` with the form fields `#bkDate`, `#bkType`, `#bkFreq`, `#bkAddr`. -/
def addBooking (host : Host) (now : Nat → Int) (bkDate bkType bkFreq bkAddr : String)
    (s : App) : App × Outcome :=
  let date := bkDate
  let type := bkType
  let freq := bkFreq
  let addr := trim bkAddr
  if date = "" ∨ addr = "" then (s, .alert "Select date and enter address")
  else
    match s.user with
    | none => (s, .fault)
    | some su =>
      let bookings := s.db.bookings ++
        [{ id := now 0, uid := su.id, date := date, type := type, freq := freq, addr := addr,
           status := "Confirmed" }]
      let db1 : Db := { s.db with bookings := bookings }
      let text := "Booking confirmed for " ++ type ++ " on " ++ host.fmt date
      ({ s with db := notify now 1 su.id text db1 }, .done)

/-- `UI.capture()` with the form fields `#capDate`, `#capType`, `#capKg`. -/
def capture (host : Host) (now : Nat → Int) (capDate capType capKg : String) (s : App) :
    App × Outcome :=
  let date := capDate
  let type := capType
  let kg := parseFloat (strOr capKg "0")
  if date = "" ∨ kg.isFalsy = true then (s, .alert "Enter date and weight")
  else
    match s.user with
    | none => (s, .fault)
    | some su =>
      let caps := s.db.captures ++
        [{ id := now 0, uid := su.id, date := date, type := type, kg := kg.stored }]
      let db1 : Db := { s.db with captures := caps }
      let text := "Pickup recorded: " ++ type ++ " " ++ host.showNum kg ++ "kg on " ++ host.fmt date
      ({ s with db := notify now 1 su.id text db1 }, .done)

/-- `UI.raiseTicket()` with the form field `#supportMsg`; `rand` is the reading of
`Math.random()`. -/
def raiseTicket (now : Nat → Int) (rand : ℚ) (supportMsg : String) (s : App) : App × Outcome :=
  let text := trim supportMsg
  if text = "" then (s, .ignored)
  else
    match s.user with
    | none => (s, .fault)
    | some su =>
      let t := s.db.tickets ++
        [{ id := Int.floor (rand * 9999), uid := su.id, text := text, ts := now 0 }]
      let db1 : Db := { s.db with tickets := t }
      ({ s with db := notify now 1 su.id "Support ticket raised" db1 }, .done)

/-- `UI.completeModule(id)`. -/
def completeModule (now : Nat → Int) (id : Int) (s : App) : App × Outcome :=
  match s.db.training.find? (fun x => x.id == id) with
  | none => (s, .fault)
  | some m =>
    let m1 : TrainingModule := { m with done := true }
    let db1 : Db := { s.db with training := updateFirst (fun x => x.id == id) (fun _ => m1) s.db.training }
    match s.user with
    | none => ({ s with db := db1 }, .fault)
    | some su => ({ s with db := notify now 0 su.id ("Training completed: " ++ m1.title) db1 }, .done)

/-- `UI.pay()` with the form fields `#payPurpose` and `#payAmt`.  The transaction is written
before the rewards are looked up.  What is written to the store is the stored form of each
number; `State.user` keeps the record as computed. -/
def pay (host : Host) (now : Nat → Int) (payPurpose payAmt : String) (s : App) : App × Outcome :=
  let purpose := payPurpose
  match parseInt (strOr payAmt "0") with
  | none => (s, .alert "Enter amount")
  | some amount =>
    if amount.isFalsy then (s, .alert "Enter amount")
    else
      match s.user with
      | none => (s, .fault)
      | some su =>
        let tx := s.db.transactions ++
          [{ id := now 0, uid := su.id, purpose := purpose, amount := amount.stored, ts := now 1 }]
        let db1 : Db := { s.db with transactions := tx }
        if purpose ≠ "Fine" then
          match db1.users.find? (fun x => x.id == su.id) with
          | none => ({ s with db := db1 }, .fault)
          | some u =>
            let u1 : User := { u with rewards := Num.add u.rewards.orZero amount.floorDiv100 }
            let written : User := { u1 with rewards := u1.rewards.stored }
            let db2 : Db := { db1 with users := updateFirst (fun x => x.id == su.id) (fun _ => written) db1.users }
            let text := "Payment ₹" ++ host.showNum amount.toJsNum ++ " successful. Rewards updated: "
              ++ host.showNum u1.rewards.toJsNum ++ " pts"
            ({ db := notify now 2 u1.id text db2, user := some u1 }, .done)
        else
          let text := "Fine of ₹" ++ host.showNum amount.toJsNum ++ " paid."
          ({ s with db := notify now 2 su.id text db1 }, .done)

end UI

/-- The UI action surface: one constructor per domain operation, with the inputs the
operation reads (form fields, clock readings, host functions). -/
inductive Action where
  | register (now : Nat → Int) (regName regEmail regRole regPass : String)
  | login (loginEmail loginPass : String)
  | logout
  | addBooking (host : Host) (now : Nat → Int) (bkDate bkType bkFreq bkAddr : String)
  | pay (host : Host) (now : Nat → Int) (payPurpose payAmt : String)
  | capture (host : Host) (now : Nat → Int) (capDate capType capKg : String)
  | raiseTicket (now : Nat → Int) (rand : ℚ) (supportMsg : String)
  | completeModule (now : Nat → Int) (id : Int)

/-- Run one action on the application state. -/
def UI.run : Action → App → App × Outcome
  | .register now n e r p, s => UI.register now n e r p s
  | .login e p, s => UI.login e p s
  | .logout, s => UI.logout s
  | .addBooking host now d t f a, s => UI.addBooking host now d t f a s
  | .pay host now p a, s => UI.pay host now p a s
  | .capture host now d t k, s => UI.capture host now d t k s
  | .raiseTicket now r m, s => UI.raiseTicket now r m s
  | .completeModule now id, s => UI.completeModule now id s

/-- An action one of whose required fields is missing, or holds no usable number: a field
that is empty (blank, where the operation trims it), or a number field that does not parse
or parses to zero.  Login, logout and completeModule read no required form field. -/
def Action.missingInput : Action → Prop
  | .register _ n e _ p => trim n = "" ∨ trim e = "" ∨ p = ""
  | .addBooking _ _ d _ _ a => d = "" ∨ trim a = ""
  | .pay _ _ _ a => a = "" ∨ parseInt a = none ∨ parseInt a = some 0
  | .capture _ _ d _ k => d = "" ∨ k = "" ∨ (parseFloat k).isFalsy = true
  | .raiseTicket _ _ m => trim m = ""
  | _ => False

/-! ## Sample data used to instantiate the theorems -/

/-- A clock that reads `1700000000000 + k` at the `k`-th reading. -/
def sampleClock : Nat → Int := fun k => 1700000000000 + k

/-- A sample host: dates are shown as written, numbers as the quotient of two integers. -/
def sampleHost : Host :=
  { fmt := fun d => d
    showNum := fun n =>
      match n with
      | .nan => "NaN"
      | .inf negative => if negative then "-Infinity" else "Infinity"
      | .fin q => if q.den = 1 then toString q.num else toString q.num ++ "/" ++ toString q.den }

/-- A sample registered user with no reward points. -/
def ann : User :=
  { id := 7, name := "Ann", email := "ann@x.com", role := "user", pass := "Passw0rd", rewards := 0 }

/-- A store holding no records. -/
def emptyDb : Db :=
  { users := [], bookings := [], transactions := [], captures := [], notifications := [],
    tickets := [], facilities := [], training := [] }

/-- A logged-out application over the empty store. -/
def emptyApp : App := { db := emptyDb, user := none }

/-- An application where `ann` is the only user and is logged in. -/
def annApp : App := { db := { emptyDb with users := [ann] }, user := some ann }

/-! ## Seed data, reachable states and the reward balance -/

/-- The baseline `users` collection written by `seed`. -/
def seedUsers : List User :=
  [ { id := 1, name := "User", email := "user@.com", role := "user", pass := "1234", rewards := 40 },
    { id := 2, name := "Admin", email := "admin@.com", role := "admin", pass := "admin123", rewards := 0 } ]

/-- The baseline `facilities` collection written by `seed`. -/
def seedFacilities : List Facility :=
  [ { name := "Ward 12 MRF", type := "MRF", distance := "1.2 km" },
    { name := "Community Compost Center", type := "Compost", distance := "2.0 km" },
    { name := "E-waste Drop Point", type := "E-waste", distance := "3.4 km" } ]

/-- The baseline `training` collection written by `seed`. -/
def seedTraining : List TrainingModule :=
  [ { id := 1, title := "Household Segregation Basics", mins := 15, done := false },
    { id := 2, title := "Composting at Home", mins := 12, done := false },
    { id := 3, title := "Plastic Reduction & Reuse", mins := 10, done := false } ]

/-- The store after `seed` has run on an empty `localStorage`. -/
def seededDb : Db :=
  { users := seedUsers, bookings := [], transactions := [], captures := [], notifications := [],
    tickets := [], facilities := seedFacilities, training := seedTraining }

/-- The application at page load over the seeded store: nobody is logged in. -/
def seededApp : App := { db := seededDb, user := none }

/-- Run a sequence of actions, keeping the state each one leaves behind. -/
def UI.runAll (as : List Action) (s : App) : App := as.foldl (fun st a => (UI.run a st).1) s

/-- States reachable from the seeded store by any sequence of domain operations; the
state an operation leaves is kept whatever its outcome. -/
inductive Reachable : App → Prop where
  | seeded : Reachable seededApp
  | step (a : Action) {s : App} : Reachable s → Reachable (UI.run a s).1

/-- The sum of `floor(amount / 100)` over the transactions of user `uid` whose purpose is not
`Fine`. -/
def rewardSum (uid : Int) (txs : List Transaction) : Int :=
  ((txs.filter (fun t => t.uid == uid && t.purpose != "Fine")).map
    (fun t => Int.fdiv t.amount.toInt 100)).sum

/-- The reward points the seed data gives to user `uid`: 40 for the seeded user with id 1,
0 for everybody else. -/
def seedRewards (uid : Int) : Int :=
  ((seedUsers.find? (fun x => x.id == uid)).map (fun u => u.rewards.toInt)).getD 0

/-- The sum of the absolute amounts of all transactions. -/
def paidTotal (txs : List Transaction) : Nat :=
  (txs.map (fun t => t.amount.toInt.natAbs)).sum

/-- A ledger inside the safe-integer range: every amount is a finite number, and the seed
balance of 40 plus the absolute amounts of all transactions stays below `2 ^ 53`, so that no
running balance can leave the range in which doubles hold every integer exactly. -/
def SafeLedger (txs : List Transaction) : Prop :=
  (∀ t ∈ txs, t.amount.isFinite = true) ∧ 40 + paidTotal txs < 2 ^ 53

instance (txs : List Transaction) : Decidable (SafeLedger txs) := by
  unfold SafeLedger
  infer_instance

/-- The invariant behind the reward balance: the seeded ids stay in `users`, the session
user and every transaction owner have a record in `users`, and the record stored under
each id carries the seed balance plus the credited sum. -/
structure RewardInv (s : App) : Prop where
  seedIds : ∀ x ∈ seedUsers, x.id ∈ s.db.users.map User.id
  session : ∀ su, s.user = some su → su.id ∈ s.db.users.map User.id
  txOwner : ∀ t ∈ s.db.transactions, t.uid ∈ s.db.users.map User.id
  balance : ∀ i u, s.db.users.find? (fun x => x.id == i) = some u →
    u.rewards = Num.fin (seedRewards i + rewardSum i s.db.transactions)

/-- The seeded user logs in and pays 250 for a collection. -/
def paidTrace : List Action :=
  [ Action.login "user@.com" "1234", Action.pay sampleHost sampleClock "Collection" "250" ]

/-- Two registrations read the same clock value, then the second registrant logs in. -/
def sameClockLogin : List Action :=
  [ Action.register sampleClock "Bob" "bob@x.com" "user" "pw1",
    Action.register sampleClock "Cat" "cat@x.com" "user" "pw2",
    Action.login "cat@x.com" "pw2" ]

/-- Two registrations read the same clock value, then the second registrant logs in and
pays 250. -/
def sameClockTrace : List Action :=
  sameClockLogin ++ [ Action.pay sampleHost sampleClock "Collection" "250" ]

/-- The seeded user logs in and pays 60000000000000096 for a collection. -/
def largeAmountTrace : List Action :=
  [ Action.login "user@.com" "1234",
    Action.pay sampleHost sampleClock "Collection" "60000000000000096" ]

/-! ## The store over `localStorage` -/

/-- JavaScript values that can be handed to or returned by the store.  An object is given
by its properties, in enumeration order. -/
inductive JSVal where
  | undefined
  | null
  | bool (b : Bool)
  | num (x : JsNum)
  | str (s : String)
  | arr (items : List JSVal)
  | obj (fields : List (String × JSVal))
deriving Repr

/-- JavaScript `!v`: the falsy values are `undefined`, `null`, `false`, `0`, `NaN` and
`""`. -/
def JSVal.isFalsy : JSVal → Bool
  | .undefined => true
  | .null => true
  | .bool b => !b
  | .num x => x.isFalsy
  | .str s => decide (s = "")
  | .arr _ => false
  | .obj _ => false

/-- JavaScript `v ?? d`: `d` when `v` is `null` or `undefined`, else `v`. -/
def JSVal.orElse (v d : JSVal) : JSVal :=
  match v with
  | .undefined => d
  | .null => d
  | _ => v

/-- The contents of `localStorage`: the text stored under each key, if any. -/
abbrev LocalStorage := String → Option String

/-- `localStorage.setItem(key, text)`. -/
def LocalStorage.setItem (ls : LocalStorage) (key text : String) : LocalStorage :=
  fun k => if k = key then some text else ls k

/-- The host's JSON functions.  `parse` is `JSON.parse` (`none`: it throws `SyntaxError`),
`stringify` is `JSON.stringify` (`none`: it returns `undefined`); the one law used is that
the text `null` parses to `null`. -/
structure JsonApi where
  parse : String → Option JSVal
  stringify : JSVal → Option String
  parse_null : parse "null" = some JSVal.null

namespace Store

/-- `Store.read(key, def)`: `localStorage.getItem(key)` is `null` for an absent key, and
`JSON.parse` converts its argument to text, so an absent key is parsed as the text `null`;
a thrown `SyntaxError` is caught and gives `def`. -/
def read (J : JsonApi) (ls : LocalStorage) (key : String) (d : JSVal) : JSVal :=
  match J.parse ((ls key).getD "null") with
  | none => d
  | some v => v.orElse d

/-- `Store.write(key, value)`: `setItem` converts the result of `JSON.stringify` to text, so
the result `undefined` is stored as the text `undefined`. -/
def write (J : JsonApi) (ls : LocalStorage) (key : String) (value : JSVal) : LocalStorage :=
  ls.setItem key ((J.stringify value).getD "undefined")

end Store

/-- An integer as a JavaScript value. -/
def JSVal.int (n : Int) : JSVal := .num (.fin (n : ℚ))

/-- A numeric field as a JavaScript value. -/
def Num.toJson : Num → JSVal
  | .nan => .num .nan
  | .null => .null
  | .inf b => .num (.inf b)
  | .fin n => .int n

/-- The object literal of a user record. -/
def User.toJson (u : User) : JSVal :=
  .obj [("id", .int u.id), ("name", .str u.name), ("email", .str u.email), ("role", .str u.role),
    ("pass", .str u.pass), ("rewards", u.rewards.toJson)]

/-- The object literal of a facility record. -/
def Facility.toJson (f : Facility) : JSVal :=
  .obj [("name", .str f.name), ("type", .str f.type), ("distance", .str f.distance)]

/-- The object literal of a training module. -/
def TrainingModule.toJson (m : TrainingModule) : JSVal :=
  .obj [("id", .int m.id), ("title", .str m.title), ("mins", .int m.mins), ("done", .bool m.done)]

/-- One line of `seed`: `if (!Store.read(key)) Store.write(key, baseline)`. -/
def seedKey (J : JsonApi) (key : String) (baseline : JSVal) (ls : LocalStorage) : LocalStorage :=
  if (Store.read J ls key JSVal.undefined).isFalsy then Store.write J ls key baseline else ls

/-- The seed initializer. -/
def seed (J : JsonApi) (ls : LocalStorage) : LocalStorage :=
  let ls := seedKey J "users" (.arr (seedUsers.map User.toJson)) ls
  let ls := seedKey J "bookings" (.arr []) ls
  let ls := seedKey J "transactions" (.arr []) ls
  let ls := seedKey J "captures" (.arr []) ls
  let ls := seedKey J "notifications" (.arr []) ls
  let ls := seedKey J "tickets" (.arr []) ls
  let ls := seedKey J "facilities" (.arr (seedFacilities.map Facility.toJson)) ls
  seedKey J "training" (.arr (seedTraining.map TrainingModule.toJson)) ls

/-- The keys and baseline values of `seed`, in the order it goes through them. -/
def seedTable : List (String × JSVal) :=
  [ ("users", .arr (seedUsers.map User.toJson)), ("bookings", .arr []),
    ("transactions", .arr []), ("captures", .arr []), ("notifications", .arr []),
    ("tickets", .arr []), ("facilities", .arr (seedFacilities.map Facility.toJson)),
    ("training", .arr (seedTraining.map TrainingModule.toJson)) ]

/-- Go through a table of keys and baselines as `seed` does. -/
def seedSteps (J : JsonApi) (tbl : List (String × JSVal)) (ls : LocalStorage) : LocalStorage :=
  tbl.foldl (fun st kb => seedKey J kb.1 kb.2 st) ls

/-! ### A concrete JSON codec

`JsonLite` is a model of the host's `JSON.parse` and `JSON.stringify` on the values
`JSVal`.  It reads the JSON grammar (white space, literal names, numbers with fraction and
exponent rounded to the nearest double, strings with escapes, arrays, objects, a repeated
property name overriding the earlier value) and writes values the way `JSON.stringify`
does: `undefined`, and a property whose value is `undefined`, are left out, an `undefined`
element and a non-finite number are written `null`.  Two things are kept simpler than in
the host, neither of which changes what is read back from a written text.  The digits of
a number are its exact decimal expansion, where the host writes the shortest digits that
read back as the same double, in exponent form beyond 21 digits.  And an object is the
list of its properties in the order of the text, where the host enumerates property names
that are array indices first. -/

namespace JsonLite

/-- The double quote character. -/
def dq : Char := Char.ofNat 34
/-- The backslash character. -/
def bs : Char := Char.ofNat 92
/-- The opening bracket of an array. -/
def lbracket : Char := Char.ofNat 91
/-- The closing bracket of an array. -/
def rbracket : Char := Char.ofNat 93
/-- The opening brace of an object. -/
def lbrace : Char := Char.ofNat 123
/-- The closing brace of an object. -/
def rbrace : Char := Char.ofNat 125
/-- The comma. -/
def comma : Char := Char.ofNat 44
/-- The colon. -/
def colon : Char := Char.ofNat 58
/-- The minus sign. -/
def minus : Char := Char.ofNat 45
/-- The decimal point. -/
def dot : Char := Char.ofNat 46

/-- Lower-case hexadecimal digit of a number below 16. -/
def hexDigit (n : Nat) : Char := if n < 10 then Char.ofNat (48 + n) else Char.ofNat (87 + n)

/-- How `JSON.stringify` writes one character of a string. -/
def escapeChar (c : Char) : List Char :=
  if c = dq then [bs, dq]
  else if c = bs then [bs, bs]
  else if c.toNat = 8 then [bs, 'b']
  else if c.toNat = 12 then [bs, 'f']
  else if c.toNat = 10 then [bs, 'n']
  else if c.toNat = 13 then [bs, 'r']
  else if c.toNat = 9 then [bs, 't']
  else if c.toNat < 32 then [bs, 'u', '0', '0', hexDigit (c.toNat / 16), hexDigit (c.toNat % 16)]
  else [c]

/-- The escaped characters of a string. -/
def escape (cs : List Char) : List Char := (cs.map escapeChar).flatten

/-- A string literal: the escaped characters between double quotes. -/
def quote (s : String) : List Char := dq :: (escape s.data ++ [dq])

/-- The decimal digit for a number below 10. -/
def digitChar (d : Nat) : Char := Char.ofNat (48 + d)

/-- The last `k` decimal digits of `n`, most significant first. -/
def fixedDigits : Nat → Nat → List Char
  | 0, _ => []
  | k + 1, n => fixedDigits k (n / 10) ++ [digitChar (n % 10)]

/-- The number of decimal digits of `n`, by dividing at most `fuel` times. -/
def numDigitsAux : Nat → Nat → Nat
  | 0, _ => 1
  | fuel + 1, n => if n < 10 then 1 else numDigitsAux fuel (n / 10) + 1

/-- The decimal digits of `n`, without leading zero. -/
def natDigits (n : Nat) : List Char := fixedDigits (numDigitsAux n n) n

/-- The digits of a finite number: sign, integer part and, for a fraction whose
denominator is `2 ^ k`, its `k` decimal places. -/
def showDecimal (q : ℚ) : List Char :=
  (if q < 0 then [minus] else [])
    ++ natDigits (q.num.natAbs / q.den)
    ++ (if q.den = 1 then []
        else dot :: fixedDigits (ilog2 q.den) (q.num.natAbs % q.den * 5 ^ ilog2 q.den))

/-- How `JSON.stringify` writes a number: `NaN` and the infinities become `null`. -/
def renderNum : JsNum → List Char
  | .fin q => showDecimal q
  | _ => "null".data

mutual
/-- Serialization of a value in property or element position: `undefined` elements are
written `null`. -/
def render : JSVal → List Char
  | .undefined => "null".data
  | .null => "null".data
  | .bool true => "true".data
  | .bool false => "false".data
  | .num x => renderNum x
  | .str s => quote s
  | .arr xs => lbracket :: (renderItems true xs ++ [rbracket])
  | .obj fs => lbrace :: (renderFields true fs ++ [rbrace])
/-- Serialized elements of an array, comma separated; `first` tells whether a comma is due
before the next element. -/
def renderItems : Bool → List JSVal → List Char
  | _, [] => []
  | first, x :: xs => (if first then [] else [comma]) ++ (render x ++ renderItems false xs)
/-- Serialized properties of an object, comma separated; properties whose value is
`undefined` are skipped. -/
def renderFields : Bool → List (String × JSVal) → List Char
  | _, [] => []
  | first, (_, .undefined) :: fs => renderFields first fs
  | first, (k, v) :: fs =>
    (if first then [] else [comma]) ++ (quote k ++ (colon :: (render v ++ renderFields false fs)))
end

/-- `JSON.stringify(v)`: `none` is the result `undefined`. -/
def stringify : JSVal → Option String
  | .undefined => none
  | v => some (String.mk (render v))

/-- JSON white space. -/
def isWs (c : Char) : Bool := c.toNat = 32 || c.toNat = 9 || c.toNat = 10 || c.toNat = 13

/-- Drop leading JSON white space. -/
def skipWs (cs : List Char) : List Char := cs.dropWhile isWs

/-- Value of a hexadecimal digit. -/
def hexVal (c : Char) : Option Nat :=
  if c.isDigit then some (c.toNat - 48)
  else if 97 ≤ c.toNat ∧ c.toNat ≤ 102 then some (c.toNat - 87)
  else if 65 ≤ c.toNat ∧ c.toNat ≤ 70 then some (c.toNat - 55)
  else none

/-- Value of four hexadecimal digits. -/
def hex4 (a b c d : Char) : Option Nat :=
  match hexVal a, hexVal b, hexVal c, hexVal d with
  | some x, some y, some z, some w => some (((x * 16 + y) * 16 + z) * 16 + w)
  | _, _, _, _ => none

/-- The code unit an escape `\\uXXXX` names, and the text after it; `r` is the text after
the `u`. -/
def readHex4 (r : List Char) : Option (Nat × List Char) :=
  match r with
  | a :: b :: c :: d :: r1 => (hex4 a b c d).map (fun code => (code, r1))
  | _ => none

/-- The character an escape `\\uXXXX` stands for, and the text after it; `r` is the text
after the `u`.  A pair of such escapes naming a high and a low surrogate gives the one
character they encode; a surrogate without its partner has no counterpart among the
characters of a `String` and is refused. -/
def readUnicode (r : List Char) : Option (Char × List Char) :=
  match readHex4 r with
  | none => none
  | some (code, r1) =>
    if code < 55296 ∨ 57344 ≤ code then some (Char.ofNat code, r1)
    else
      match r1 with
      | b2 :: u2 :: r2 =>
        match readHex4 r2 with
        | none => none
        | some (low, r3) =>
          if b2 = bs ∧ u2 = 'u' ∧ code < 56320 ∧ 56320 ≤ low ∧ low < 57344 then
            some (Char.ofNat (65536 + (code - 55296) * 1024 + (low - 56320)), r3)
          else none
      | _ => none

/-- The character an escape sequence stands for, and the text after it; `cs` is the text
after the backslash. -/
def readEscape (cs : List Char) : Option (Char × List Char) :=
  match cs with
  | [] => none
  | e :: r =>
    if e = dq then some (dq, r)
    else if e = bs then some (bs, r)
    else if e = '/' then some ('/', r)
    else if e = 'b' then some (Char.ofNat 8, r)
    else if e = 'f' then some (Char.ofNat 12, r)
    else if e = 'n' then some (Char.ofNat 10, r)
    else if e = 'r' then some (Char.ofNat 13, r)
    else if e = 't' then some (Char.ofNat 9, r)
    else if e = 'u' then readUnicode r
    else none

/-- Characters of a string literal after its opening quote, up to the closing quote; the
first argument bounds the number of characters read. -/
def parseString : Nat → List Char → List Char → Option (String × List Char)
  | 0, _, _ => none
  | _ + 1, [], _ => none
  | fuel + 1, c :: cs, acc =>
    if c = dq then some (String.mk acc.reverse, cs)
    else if c.toNat < 32 then none
    else if c = bs then
      match readEscape cs with
      | none => none
      | some (ch, r) => parseString fuel r (ch :: acc)
    else parseString fuel cs (c :: acc)

/-- The exact value of an unsigned number literal (integer part without leading zero,
optional fraction, optional exponent) at the start of `body`, and the text after it. -/
def parseDecimal (body : List Char) : Option (ℚ × List Char) :=
  let intDs := body.takeWhile Char.isDigit
  let r1 := body.dropWhile Char.isDigit
  if intDs.isEmpty then none
  else if decide (1 < intDs.length) && intDs.head? == some '0' then none
  else
    let hasFrac : Bool := r1.head? == some dot
    let fracDs := if hasFrac then r1.tail.takeWhile Char.isDigit else []
    let r2 := if hasFrac then r1.tail.dropWhile Char.isDigit else r1
    if hasFrac && fracDs.isEmpty then none
    else
      let hasExp : Bool := r2.head? == some 'e' || r2.head? == some 'E'
      let e1 := if hasExp then r2.tail else r2
      let eneg : Bool := hasExp && e1.head? == some minus
      let e2 := if hasExp && (e1.head? == some minus || e1.head? == some '+') then e1.tail else e1
      let expDs := if hasExp then e2.takeWhile Char.isDigit else []
      let r3 := if hasExp then e2.dropWhile Char.isDigit else r2
      if hasExp && expDs.isEmpty then none
      else
        let exp : Int := if eneg then -(digitsVal expDs : Int) else (digitsVal expDs : Int)
        some (decimalValue (digitsVal (intDs ++ fracDs)) (exp - fracDs.length), r3)

/-- A number literal: an optional minus sign and an unsigned literal; its value is rounded
to the nearest double. -/
def parseNumber (cs : List Char) : Option (JsNum × List Char) :=
  let neg : Bool := cs.head? == some minus
  (parseDecimal (if neg then cs.tail else cs)).map
    (fun p => (roundFrac neg p.1.num.natAbs p.1.den, p.2))

/-- The properties of an object literal whose first property is `k: v` and whose remaining
properties are `rest`: a later property of the same name overrides the value and leaves the
property where it first stood. -/
def addField (k : String) (v : JSVal) (rest : List (String × JSVal)) : List (String × JSVal) :=
  match rest.lookup k with
  | some v1 => (k, v1) :: rest.filter (fun p => p.1 != k)
  | none => (k, v) :: rest

mutual
/-- Read one JSON value; the first argument bounds the nesting and the number of
elements. -/
def parseValue : Nat → List Char → Option (JSVal × List Char)
  | 0, _ => none
  | fuel + 1, cs =>
    if "null".data.isPrefixOf (skipWs cs) then some (.null, (skipWs cs).drop 4)
    else if "true".data.isPrefixOf (skipWs cs) then some (.bool true, (skipWs cs).drop 4)
    else if "false".data.isPrefixOf (skipWs cs) then some (.bool false, (skipWs cs).drop 5)
    else match skipWs cs with
      | [] => none
      | c :: r =>
        if c = dq then (parseString r.length r []).map (fun p => (.str p.1, p.2))
        else if c = lbracket then
          match skipWs r with
          | [] => none
          | c1 :: r1 =>
            if c1 = rbracket then some (.arr [], r1)
            else (parseItems fuel (c1 :: r1)).map (fun p => (.arr p.1, p.2))
        else if c = lbrace then
          match skipWs r with
          | [] => none
          | c1 :: r1 =>
            if c1 = rbrace then some (.obj [], r1)
            else (parseFields fuel (c1 :: r1)).map (fun p => (.obj p.1, p.2))
        else (parseNumber (c :: r)).map (fun p => (.num p.1, p.2))
/-- Read the elements of a non-empty array up to its closing bracket. -/
def parseItems : Nat → List Char → Option (List JSVal × List Char)
  | 0, _ => none
  | fuel + 1, cs =>
    match parseValue fuel cs with
    | none => none
    | some (v, r) =>
      match skipWs r with
      | [] => none
      | c :: r1 =>
        if c = comma then (parseItems fuel r1).map (fun p => (v :: p.1, p.2))
        else if c = rbracket then some ([v], r1)
        else none
/-- Read the properties of a non-empty object up to its closing brace. -/
def parseFields : Nat → List Char → Option (List (String × JSVal) × List Char)
  | 0, _ => none
  | fuel + 1, cs =>
    match skipWs cs with
    | [] => none
    | c :: r =>
      if c = dq then
        match parseString r.length r [] with
        | none => none
        | some (k, r1) =>
          match skipWs r1 with
          | [] => none
          | c1 :: r2 =>
            if c1 = colon then
              match parseValue fuel r2 with
              | none => none
              | some (v, r3) =>
                match skipWs r3 with
                | [] => none
                | c2 :: r4 =>
                  if c2 = comma then (parseFields fuel r4).map (fun p => (addField k v p.1, p.2))
                  else if c2 = rbrace then some ([(k, v)], r4)
                  else none
            else none
      else none
end

/-- The text that can follow a value inside a serialized value: nothing, or a comma, a
closing bracket or a closing brace. -/
def Delim (rest : List Char) : Prop :=
  ∀ c, rest.head? = some c → c = comma ∨ c = rbracket ∨ c = rbrace

/-- A character that starts a number, a string, an array or an object: it is no white
space, no comma and no closing bracket or brace, and none of the letters that start a
literal name. -/
def StartChar (c : Char) : Prop :=
  isWs c = false ∧ c ≠ 'n' ∧ c ≠ 't' ∧ c ≠ 'f' ∧ c ≠ comma ∧ c ≠ rbracket ∧ c ≠ rbrace

/-- `JSON.parse(text)`: `none` is a `SyntaxError`. -/
def parse (text : String) : Option JSVal :=
  match parseValue (text.length + 1) text.data with
  | none => none
  | some (v, rest) => if (skipWs rest).isEmpty then some v else none

end JsonLite

/-- The concrete codec as an instance of the host's JSON functions. -/
def jsonLite : JsonApi :=
  { parse := JsonLite.parse, stringify := JsonLite.stringify, parse_null := rfl }

mutual
/-- A value made of `null`, booleans, finite numbers, strings, arrays and objects only: no
`undefined`, `NaN` or infinity anywhere in it, every number a double (rounding it to the
nearest double leaves it as it is), and the property names of each object distinct, as
they are in every object. -/
def JSVal.isData : JSVal → Bool
  | .undefined => false
  | .null => true
  | .bool _ => true
  | .num (.fin q) => decide (roundQ q = JsNum.fin q)
  | .num _ => false
  | .str _ => true
  | .arr xs => JSVal.isDataItems xs
  | .obj fs => JSVal.isDataFields fs
/-- Every element is data. -/
def JSVal.isDataItems : List JSVal → Bool
  | [] => true
  | x :: xs => JSVal.isData x && JSVal.isDataItems xs
/-- Every property value is data, and no two properties have the same name. -/
def JSVal.isDataFields : List (String × JSVal) → Bool
  | [] => true
  | (k, v) :: fs => JSVal.isData v && fs.all (fun p => p.1 != k) && JSVal.isDataFields fs
end

/-- An empty `localStorage`. -/
def emptyStorage : LocalStorage := fun _ => none

/-- A `localStorage` with a well-formed entry, a truncated entry and an entry holding the
text `null`; every other key is absent. -/
def sampleStorage : LocalStorage := fun k =>
  if k = "tickets" then some "[1, 2]"
  else if k = "users" then some "[1,"
  else if k = "captures" then some "null"
  else none

/-! ## The chart renderer -/

/-- A `ctx.fillRect(x, y, w, h)` call. -/
structure Rect where
  x : ℚ
  y : ℚ
  w : ℚ
  h : ℚ
deriving DecidableEq, Repr

/-- `Array.prototype.slice(-n)`: the last `n` elements. -/
def lastN {α : Type} (n : Nat) (l : List α) : List α := l.drop (l.length - n)

/-- The number a stored weight counts as in arithmetic: `null` converts to 0. -/
def Capture.weight (c : Capture) : ℚ := c.kg.getD 0

/-- The object literal of a capture record. -/
def Capture.toJson (c : Capture) : JSVal :=
  .obj [("id", .int c.id), ("uid", .int c.uid), ("date", .str c.date), ("type", .str c.type),
    ("kg", match c.kg with
      | some q => .num (.fin q)
      | none => .null)]

/-- The capture that `UI.capture` stores for the weight `2.5`. -/
def halfCapture : Capture :=
  { id := 1700000000000, uid := 7, date := "2024-05-01", type := "Dry", kg := some (5 / 2) }

/-- The `forEach` loop of `drawChart`: one bar per entry, `x` advancing by `bw + gap`. -/
def drawBars (max : ℚ) : ℚ → List Capture → List Rect
  | _, [] => []
  | x, d :: ds =>
    let h := d.weight / max * 120
    { x := x, y := 150 - h, w := 20, h := h } :: drawBars max (x + (20 + 10)) ds

/-- `UI.drawChart()`: the `fillRect` calls that draw the bars, in order.  `Math.max(1, ...)`
is the left fold of `max` from 1; `State.user?.id` of a logged-out session matches no
capture. -/
def UI.drawChart (s : App) : List Rect :=
  let data := lastN 10 (s.db.captures.filter (fun c => some c.uid == s.user.map User.id))
  let max := (data.map Capture.weight).foldl Max.max 1
  drawBars max 40 data

/-- The capture entries of user `u`, in stored order. -/
def capturesOf (s : App) (u : User) : List Capture :=
  s.db.captures.filter (fun c => c.uid == u.id)

/-- The last `min(10, n)` of `n` entries, in stored order. -/
def chartWindow (mine : List Capture) : List Capture :=
  mine.drop (mine.length - min 10 mine.length)

/-- The scale denominator of the chart: the maximum weight in the window, and never
below 1. -/
def chartScale (window : List Capture) : ℚ := (window.map Capture.weight).foldr Max.max 1

/-- The `i`-th bar for entry `c`: height `weight / scale * 120`, standing on the axis at
ordinate 150, 20 wide, 30 apart starting at abscissa 40. -/
def chartBar (scale : ℚ) (i : Nat) (c : Capture) : Rect :=
  { x := 40 + 30 * (i : ℚ), y := 150 - c.weight / scale * 120, w := 20, h := c.weight / scale * 120 }

/-- A sample capture of user 7 weighing `i + 1` kilograms. -/
def sampleCapture (i : Nat) : Capture :=
  { id := 1700000000000 + i, uid := 7, date := "2024-05-01", type := "Dry",
    kg := some ((i : ℚ) + 1) }

/-- Twelve captures of user 7 weighing 1 to 12 kilograms, then one capture of user 1. -/
def chartCaptures : List Capture :=
  (List.range 12).map sampleCapture
    ++ [{ id := 1700000000100, uid := 1, date := "2024-05-02", type := "Wet", kg := some 500 }]

/-- An application where `ann` is logged in over the sample captures. -/
def chartApp : App := { db := { emptyDb with captures := chartCaptures }, user := some ann }

/-! ## The KPI renderer -/

/-- The values `UI.renderKPI` assigns to the text of the KPI elements. -/
structure Kpi where
  /-- Text of `#kpiUpcoming`: `upcoming.length`. -/
  kpiUpcoming : Nat
  /-- Text of `#kpiNextDate`. -/
  kpiNextDate : String
  /-- Text of `#kpiRewards`: `State.user.rewards || 0`. -/
  kpiRewards : Num
  /-- Text of `#kpiTx`. -/
  kpiTx : Nat
  /-- Text of `#kpiFines`. -/
  kpiFines : String
deriving DecidableEq, Repr

/-- `Array.prototype.filter` with a callback that looks at the clock: the callback for the
element at position `k` gets `k` to take its own reading. -/
def filterAt {α : Type} (p : Nat → α → Bool) : Nat → List α → List α
  | _, [] => []
  | k, x :: xs => if p k x then x :: filterAt p (k + 1) xs else filterAt p (k + 1) xs

/-- `new Date(d) >= new Date()` at clock reading `now`: the comparison is on time values,
and it is false for an invalid date, whose time value is `NaN` (`none`). -/
def notBefore (dateValue : String → Option Int) (d : String) (now : Int) : Bool :=
  match dateValue d with
  | some t => decide (now ≤ t)
  | none => false

/-- `UI.renderKPI()`: `dateValue` is the time value of `new Date(d)` for a date string,
`now k` the reading of `new Date()` in the `k`-th call of the filter callback; `none` is
the `TypeError` of a logged-out session. -/
def UI.renderKPI (host : Host) (dateValue : String → Option Int) (now : Nat → Int) (s : App) :
    Option Kpi :=
  match s.user with
  | none => none
  | some su =>
    let bookings := s.db.bookings.filter (fun b => b.uid == su.id)
    let tx := s.db.transactions.filter (fun t => t.uid == su.id)
    let upcoming := filterAt (fun k b => notBefore dateValue b.date (now k)) 0 bookings
    let fines := (tx.filter (fun t => t.purpose == "Fine")).foldl (fun a b => Num.add a b.amount) 0
    some
      { kpiUpcoming := upcoming.length
        kpiNextDate := match upcoming.head? with
          | some b => host.fmt b.date
          | none => "—"
        kpiRewards := su.rewards.orZero
        kpiTx := (lastN 30 tx).length
        kpiFines := if fines.isFalsy then "No fines"
          else "₹" ++ host.showNum fines.toJsNum ++ " in fines" }

/-- The bookings of user `u` whose date is at or after the instant `t`, in stored order. -/
def upcomingOf (dateValue : String → Option Int) (t : Int) (s : App) (u : User) : List Booking :=
  (s.db.bookings.filter (fun b => b.uid == u.id)).filter (fun b => notBefore dateValue b.date t)

/-- The sum of the amounts of the transactions of user `u` whose purpose is `Fine`. -/
def finesOf (s : App) (u : User) : Int :=
  ((s.db.transactions.filter (fun t => t.uid == u.id && t.purpose == "Fine")).map
    (fun t => t.amount.toInt)).sum

/-- Days from 1970-01-01 to the given civil date of the proleptic Gregorian calendar. -/
def daysFromCivil (y m d : Int) : Int :=
  let y1 := if m ≤ 2 then y - 1 else y
  let era := Int.fdiv y1 400
  let yoe := y1 - era * 400
  let mp := if m > 2 then m - 3 else m + 9
  let doy := (153 * mp + 2) / 5 + d - 1
  let doe := yoe * 365 + yoe / 4 - yoe / 100 + doy
  era * 146097 + doe - 719468

/-- Number of days of month `m` in year `y`. -/
def daysInMonth (y m : Int) : Int :=
  if m = 2 then (if (y % 4 = 0 ∧ y % 100 ≠ 0) ∨ y % 400 = 0 then 29 else 28)
  else if m = 4 ∨ m = 6 ∨ m = 9 ∨ m = 11 then 30
  else 31

/-- A sample of the host's date reading: a string `YYYY-MM-DD` naming a calendar day has the
time value of that day's UTC midnight, in milliseconds; any other string is an invalid
date. -/
def isoDateValue (s : String) : Option Int :=
  match s.data with
  | [y1, y2, y3, y4, s1, m1, m2, s2, d1, d2] =>
    if [y1, y2, y3, y4, m1, m2, d1, d2].all Char.isDigit && s1 == '-' && s2 == '-' then
      let y : Int := digitsVal [y1, y2, y3, y4]
      let m : Int := digitsVal [m1, m2]
      let d : Int := digitsVal [d1, d2]
      if 1 ≤ m ∧ m ≤ 12 ∧ 1 ≤ d ∧ d ≤ daysInMonth y m then
        some (daysFromCivil y m d * 86400000)
      else none
    else none
  | _ => none

/-- The seeded user logs in, books a pickup for 10 May 2030 and then one for 1 January
2030. -/
def lateFirstTrace : List Action :=
  [ Action.login "user@.com" "1234",
    Action.addBooking sampleHost sampleClock "2030-05-10" "Dry" "Weekly" "12 Main St",
    Action.addBooking sampleHost (fun k => sampleClock (k + 60000)) "2030-01-01" "Wet" "Once"
      "12 Main St" ]

/-! ## Helper lemmas -/

theorem ilog2Aux_le (b : Nat) : ∀ fuel n, n < 2 ^ (b + 1) → ilog2Aux fuel n ≤ b := by
  induction b with
  | zero =>
    intro fuel n hn
    cases fuel with
    | zero => simp [ilog2Aux]
    | succ f =>
      have : n < 2 := by simpa using hn
      simp [ilog2Aux, this]
  | succ b ih =>
    intro fuel n hn
    cases fuel with
    | zero => simp [ilog2Aux]
    | succ f =>
      unfold ilog2Aux
      split
      · omega
      · have h2 : n / 2 < 2 ^ (b + 1) := by
          rw [Nat.div_lt_iff_lt_mul (by norm_num)]
          calc n < 2 ^ (b + 1 + 1) := hn
            _ = 2 ^ (b + 1) * 2 := by ring
        have := ih f (n / 2) h2
        omega

theorem ilog2_le {n b : Nat} (h : n < 2 ^ (b + 1)) : ilog2 n ≤ b := ilog2Aux_le b n n h

/-- Rounding `a * t / 100` to the nearest integer and dividing by `t` again gives the
integer part of `a / 100`, as soon as `t` exceeds 50. -/
theorem roundHalfEven_div100 (a t : Nat) (ht : 50 < t) :
    roundHalfEven (a * t) 100 / t = a / 100
      ∧ (roundHalfEven (a * t) 100 + t - 1) / t = (a + 99) / 100 := by
  have ha : a = 100 * (a / 100) + a % 100 := (Nat.div_add_mod a 100).symm
  have hd : a % 100 < 100 := Nat.mod_lt _ (by norm_num)
  generalize a / 100 = c at ha
  generalize a % 100 = d at ha hd
  subst ha
  have hv1 : d * t ≤ 99 * t := Nat.mul_le_mul_right t (by omega)
  have hN : (100 * c + d) * t = 100 * (c * t) + d * t := by ring
  constructor
  · rw [hN]
    apply Nat.div_eq_of_lt_le
    · unfold roundHalfEven
      split <;> omega
    · unfold roundHalfEven
      have : (c + 1) * t = c * t + t := by ring
      rw [this]
      split <;> omega
  · rw [hN]
    by_cases hd0 : d = 0
    · subst hd0
      simp only [Nat.zero_mul, Nat.add_zero]
      have hr : roundHalfEven (100 * (c * t)) 100 = c * t := by
        unfold roundHalfEven
        simp
      rw [hr]
      have h1 : (100 * c + 99) / 100 = c := by omega
      rw [h1]
      apply Nat.div_eq_of_lt_le
      · have : c * t ≤ c * t + t - 1 := by omega
        exact this
      · have : (c + 1) * t = c * t + t := by ring
        rw [this]; omega
    · have hv0 : t ≤ d * t := Nat.le_mul_of_pos_left t (by omega)
      have h1 : (100 * c + d + 99) / 100 = c + 1 := by omega
      rw [h1]
      apply Nat.div_eq_of_lt_le
      · have : (c + 1) * t = c * t + t := by ring
        rw [this]
        unfold roundHalfEven
        split <;> omega
      · have : (c + 1 + 1) * t = c * t + t + t := by ring
        rw [this]
        unfold roundHalfEven
        split <;> omega

theorem ilog2_hundred : ilog2 100 = 6 := by decide

theorem doubleExp_hundred (n : Nat) (hn : n < 2 ^ 53) :
    -59 ≤ doubleExp n 100 ∧ doubleExp n 100 ≤ -6 := by
  have h1 : ilog2 n ≤ 52 := ilog2_le hn
  unfold doubleExp
  rw [ilog2_hundred]
  simp only []
  split <;> omega

theorem neg_natCast_fdiv (m t : Nat) (ht : 0 < t) :
    Int.fdiv (-(m : Int)) (t : Int) = -(((m + t - 1) / t : Nat) : Int) := by
  rw [Int.fdiv_eq_ediv _ (Int.natCast_nonneg t)]
  have htz : (0 : Int) < (t : Int) := by exact_mod_cast ht
  have hq1 : (m + t - 1) / t * t ≤ m + t - 1 := Nat.div_mul_le_self _ _
  have hq2 : m + t - 1 < t * ((m + t - 1) / t + 1) := Nat.lt_mul_div_succ _ ht
  generalize (m + t - 1) / t = q at hq1 hq2
  have hq2' : m + t - 1 < q * t + t := by
    have : t * (q + 1) = q * t + t := by ring
    omega
  apply le_antisymm
  · have : -(m : Int) / (t : Int) < -(q : Int) + 1 := by
      rw [Int.ediv_lt_iff_lt_mul htz]
      have : (-(q : Int) + 1) * (t : Int) = -((q * t : Nat) : Int) + t := by push_cast; ring
      rw [this]
      omega
    omega
  · rw [Int.le_ediv_iff_mul_le htz]
    have : -(q : Int) * (t : Int) = -((q * t : Nat) : Int) := by push_cast; ring
    rw [this]
    omega

theorem natCast_fdiv (m t : Nat) : Int.fdiv (m : Int) (t : Int) = ((m / t : Nat) : Int) := by
  rw [Int.fdiv_eq_ediv _ (Int.natCast_nonneg t)]
  norm_cast

/-- In the safe-integer range `Math.floor(a / 100)` computed in doubles is the exact
`floor(a / 100)`. -/
theorem floorDiv100_safe (a : Int) (ha : a.natAbs < 2 ^ 53) : floorDiv100 a = Int.fdiv a 100 := by
  obtain ⟨he1, he2⟩ := doubleExp_hundred a.natAbs ha
  have hk : 6 ≤ (-(doubleExp a.natAbs 100)).toNat := by omega
  have ht : 50 < 2 ^ (-(doubleExp a.natAbs 100)).toNat :=
    lt_of_lt_of_le (by norm_num : 50 < 2 ^ 6) (Nat.pow_le_pow_right (by norm_num) hk)
  have hneg : ¬ (0 ≤ doubleExp a.natAbs 100) := by omega
  obtain ⟨h1, h2⟩ := roundHalfEven_div100 a.natAbs _ ht
  unfold floorDiv100 floorScaled nearestDouble scaleFrac
  simp only [hneg, if_false]
  have hcast : ((2 : Int) ^ (-(doubleExp a.natAbs 100)).toNat)
      = ((2 ^ (-(doubleExp a.natAbs 100)).toNat : Nat) : Int) := by push_cast; rfl
  rw [hcast]
  by_cases hlt : a < 0
  · simp only [hlt, decide_True, if_true]
    rw [neg_natCast_fdiv _ _ (by positivity), h2]
    have ha' : a = -(a.natAbs : Int) := by omega
    have h100 : Int.fdiv a 100 = Int.fdiv (-(a.natAbs : Int)) ((100 : Nat) : Int) := by
      rw [← ha']; rfl
    rw [h100, neg_natCast_fdiv _ _ (by norm_num)]
    congr 2
  · simp only [hlt, decide_False, Bool.false_eq_true, if_false]
    rw [natCast_fdiv, h1]
    have ha' : a = (a.natAbs : Int) := by omega
    have h100 : Int.fdiv a 100 = Int.fdiv (a.natAbs : Int) ((100 : Nat) : Int) := by
      rw [← ha']; rfl
    rw [h100, natCast_fdiv]

theorem roundNat_safe (n : Nat) (hn : n < 2 ^ 53) : roundNat n = n := by
  have h1 : ilog2 n ≤ 52 := ilog2_le hn
  have h0 : ilog2 1 = 0 := by decide
  have he : doubleExp n 1 ≤ 0 := by
    unfold doubleExp
    rw [h0]
    simp only []
    split <;> omega
  unfold roundNat intScaled nearestDouble scaleFrac
  by_cases hz : doubleExp n 1 = 0
  · simp [hz, roundHalfEven, Nat.mod_one]
  · have hneg : ¬ (0 ≤ doubleExp n 1) := by omega
    simp only [hneg, if_false]
    have hr : roundHalfEven (n * 2 ^ (-(doubleExp n 1)).toNat) 1 = n * 2 ^ (-(doubleExp n 1)).toNat := by
      simp [roundHalfEven, Nat.mod_one]
    rw [hr]
    exact Nat.mul_div_cancel _ (by positivity)


theorem overflows_nat_safe (n : Nat) (hn : n < 2 ^ 53) :
    overflows (nearestDouble n 1).1 (nearestDouble n 1).2 = false := by
  have h1 : ilog2 n ≤ 52 := ilog2_le hn
  have h0 : ilog2 1 = 0 := by decide
  have he : doubleExp n 1 ≤ 0 := by
    unfold doubleExp
    rw [h0]
    simp only []
    split <;> omega
  unfold overflows nearestDouble scaleFrac
  by_cases hz : doubleExp n 1 = 0
  · have key : ∀ k, 53 ≤ k → n < 2 ^ k := fun k hk =>
      Nat.lt_of_lt_of_le hn (Nat.pow_le_pow_right (Nat.le_succ 1) hk)
    have hlt : n < doubleLimit := key 1024 (by omega)
    simp only [hz, le_refl, if_true, decide_True, Bool.true_and, decide_eq_false_iff_not, not_le,
      Int.toNat_zero, pow_zero, mul_one]
    simpa [roundHalfEven, Nat.mod_one] using hlt
  · have hneg : ¬ (0 ≤ doubleExp n 1) := by omega
    simp [hneg]

theorem roundedInt_safe (neg : Bool) (n : Nat) (hn : n < 2 ^ 53) :
    roundedInt neg n = Num.fin (if neg then -(n : Int) else (n : Int)) := by
  unfold roundedInt
  rw [overflows_nat_safe n hn, roundNat_safe n hn]
  simp

/-- Inside the safe-integer range an integer is its own nearest double. -/
theorem roundInt_safe (a : Int) (ha : a.natAbs < 2 ^ 53) : roundInt a = Num.fin a := by
  unfold roundInt
  rw [roundedInt_safe _ _ ha]
  by_cases h : a < 0
  · simp only [h, decide_True, if_true]
    congr 1; omega
  · simp only [h, decide_False, if_false, Bool.false_eq_true]
    congr 1; omega

/-- Inside the safe-integer range the sum of two finite numbers is exact. -/
theorem Num.add_fin_safe (a b : Int) (h : (a + b).natAbs < 2 ^ 53) :
    Num.add (Num.fin a) (Num.fin b) = Num.fin (a + b) := by
  show roundInt (a + b) = Num.fin (a + b)
  exact roundInt_safe _ h

theorem Num.orZero_fin (a : Int) : (Num.fin a).orZero = Num.fin a := by
  unfold Num.orZero Num.isFalsy
  by_cases h : a = 0
  · subst h; rfl
  · simp [h]

theorem Num.eq_fin_of_isFinite {x : Num} (h : x.isFinite = true) : ∃ n, x = Num.fin n := by
  cases x <;> simp [Num.isFinite] at h
  exact ⟨_, rfl⟩

theorem Num.stored_eq_fin {x : Num} {n : Int} (h : x.stored = Num.fin n) : x = Num.fin n := by
  cases x <;> simp [Num.stored] at h ⊢
  exact h

theorem fdiv_hundred_eq_floor (a : Int) : Int.fdiv a 100 = ⌊(a : ℚ) / 100⌋ := by
  rw [Int.fdiv_eq_ediv a (by norm_num : (0 : Int) ≤ 100)]
  have h := Rat.floor_intCast_div_natCast a 100
  simpa using h.symm

theorem natAbs_fdiv_hundred_le (a : Int) : (Int.fdiv a 100).natAbs ≤ a.natAbs := by
  rw [Int.fdiv_eq_ediv a (by norm_num : (0 : Int) ≤ 100)]
  omega

theorem find?_updateFirst_same {α : Type} (p : α → Bool) (f : α → α) (l : List α) (u : α)
    (h : l.find? p = some u) (hp : p (f u) = true) :
    (updateFirst p f l).find? p = some (f u) := by
  induction l with
  | nil => simp at h
  | cons x xs ih =>
    by_cases hx : p x = true
    · simp [List.find?, hx] at h
      subst h
      simp [updateFirst, hx, List.find?, hp]
    · have hx' : p x = false := by simpa using hx
      simp [List.find?, hx'] at h
      simp [updateFirst, hx', List.find?, ih h]

theorem strOr_of_parseInt {amt : String} {A : Num} (h : parseInt amt = some A) :
    strOr amt "0" = amt := by
  unfold strOr
  split
  · next he => subst he; simp [parseInt] at h
  · rfl

theorem parseInt_zero : parseInt "0" = some 0 := by decide!

/-- What `UI.pay` does on an accepted non-fine payment when the record found under the
session user's id is `u`. -/
theorem pay_nonFine (host : Host) (now : Nat → Int) (purpose amt : String) (s : App)
    (su u : User) (amount : Num)
    (hs : s.user = some su)
    (hu : s.db.users.find? (fun x => x.id == su.id) = some u)
    (hA : parseInt amt = some amount) (hA0 : amount.isFalsy = false) (hp : purpose ≠ "Fine") :
    UI.pay host now purpose amt s =
      ({ db := UI.notify now 2 su.id
            ("Payment ₹" ++ host.showNum amount.toJsNum ++ " successful. Rewards updated: "
              ++ host.showNum (Num.add u.rewards.orZero amount.floorDiv100).toJsNum ++ " pts")
            { s.db with
              transactions := s.db.transactions ++
                [{ id := now 0, uid := su.id, purpose := purpose, amount := amount.stored,
                   ts := now 1 }]
              users := updateFirst (fun x => x.id == su.id)
                (fun _ => { u with
                  rewards := (Num.add u.rewards.orZero amount.floorDiv100).stored }) s.db.users },
         user := some { u with rewards := Num.add u.rewards.orZero amount.floorDiv100 } },
        Outcome.done) := by
  have hid : u.id = su.id := by
    have h := List.find?_some hu
    simpa using h
  simp only [UI.pay, strOr_of_parseInt hA, hA, hA0, hs, hu, hp, if_false, ne_eq,
    not_false_eq_true, if_true, hid, Bool.false_eq_true]

/-- What `UI.pay` does on an accepted payment of a fine. -/
theorem pay_fine (host : Host) (now : Nat → Int) (amt : String) (s : App) (su : User)
    (amount : Num) (hs : s.user = some su) (hA : parseInt amt = some amount)
    (hA0 : amount.isFalsy = false) :
    UI.pay host now "Fine" amt s =
      ({ db := UI.notify now 2 su.id ("Fine of ₹" ++ host.showNum amount.toJsNum ++ " paid.")
            { s.db with
              transactions := s.db.transactions ++
                [{ id := now 0, uid := su.id, purpose := "Fine", amount := amount.stored,
                   ts := now 1 }] },
         user := some su }, Outcome.done) := by
  simp [UI.pay, strOr_of_parseInt hA, hA, hA0, hs]

theorem roundedInt_cases (neg : Bool) (n : Nat) :
    (∃ b, roundedInt neg n = Num.inf b) ∨ ∃ k, roundedInt neg n = Num.fin k := by
  unfold roundedInt
  split
  · exact Or.inl ⟨_, rfl⟩
  · exact Or.inr ⟨_, rfl⟩

/-- The result of `parseInt`, when it is a number, is an infinity or a finite integer. -/
theorem parseInt_cases {amt : String} {x : Num} (h : parseInt amt = some x) :
    (∃ b, x = Num.inf b) ∨ ∃ n, x = Num.fin n := by
  unfold parseInt at h
  dsimp only at h
  split_ifs at h <;>
    first
    | (cases h; done)
    | (rw [← Option.some.inj h]; exact roundedInt_cases _ _)

theorem isFalsy_of_parseInt {amt : String} {x : Num} (h : parseInt amt = some x) :
    x.isFalsy = true ↔ x = 0 := by
  rcases parseInt_cases h with ⟨b, rfl⟩ | ⟨n, rfl⟩
  · simp only [Num.isFalsy, Bool.false_eq_true, false_iff]
    intro hc; cases hc
  · simp only [Num.isFalsy, decide_eq_true_eq]
    constructor
    · intro hn; subst hn; rfl
    · intro hn; cases hn; rfl

/-- `UI.pay` aborts with the state untouched when the amount field is empty, does not
parse, or parses to zero. -/
theorem pay_rejects (host : Host) (now : Nat → Int) (purpose amt : String) (s : App)
    (h : amt = "" ∨ parseInt amt = none ∨ parseInt amt = some 0) :
    UI.pay host now purpose amt s = (s, Outcome.alert "Enter amount") := by
  have h0 : parseInt "0" = some 0 := parseInt_zero
  have hz : (0 : Num).isFalsy = true := rfl
  rcases h with h | h | h
  · subst h
    simp [UI.pay, strOr, h0, hz]
  · have hne : strOr amt "0" = amt ∨ amt = "" := by
      unfold strOr; by_cases he : amt = "" <;> simp [he]
    rcases hne with hne | hne
    · simp [UI.pay, hne, h]
    · subst hne; simp [UI.pay, strOr, h0, hz]
  · simp [UI.pay, strOr_of_parseInt h, h, hz]

theorem parseFloat_zero : parseFloat "0" = JsNum.fin 0 := by decide!

/-- `UI.capture` aborts with the state untouched when the date is empty or the weight field
is empty, does not parse, or parses to zero. -/
theorem capture_rejects (host : Host) (now : Nat → Int) (d t k : String) (s : App)
    (h : d = "" ∨ k = "" ∨ (parseFloat k).isFalsy = true) :
    UI.capture host now d t k s = (s, Outcome.alert "Enter date and weight") := by
  have hk : (parseFloat (strOr k "0")).isFalsy = true ∨ d = "" := by
    rcases h with h | h | h
    · exact Or.inr h
    · subst h; left; simp [strOr, parseFloat_zero, JsNum.isFalsy]
    · left
      unfold strOr
      by_cases he : k = ""
      · subst he; simp [parseFloat_zero, JsNum.isFalsy]
      · simpa [he] using h
  rcases hk with hk | hk
  · simp [UI.capture, hk]
  · simp [UI.capture, hk]

theorem map_id_updateFirst (p : User → Bool) (f : User → User) (l : List User)
    (hf : ∀ x, p x = true → (f x).id = x.id) :
    (updateFirst p f l).map User.id = l.map User.id := by
  induction l with
  | nil => rfl
  | cons x xs ih =>
    by_cases hx : p x = true
    · simp [updateFirst, hx, hf x hx]
    · simp [updateFirst, hx, ih]

theorem find?_updateFirst_other {α : Type} (p q : α → Bool) (f : α → α) (l : List α)
    (h : ∀ x, p x = true → q x = false ∧ q (f x) = false) :
    (updateFirst p f l).find? q = l.find? q := by
  induction l with
  | nil => rfl
  | cons x xs ih =>
    by_cases hx : p x = true
    · simp [updateFirst, hx, List.find?, (h x hx).1, (h x hx).2]
    · by_cases hq : q x = true
      · simp [updateFirst, hx, List.find?, hq]
      · simp [updateFirst, hx, List.find?, hq, ih]

theorem find?_id_eq_none_iff (l : List User) (i : Int) :
    l.find? (fun x => x.id == i) = none ↔ i ∉ l.map User.id := by
  rw [List.find?_eq_none]
  simp only [List.mem_map, not_exists, not_and, beq_iff_eq, Bool.not_eq_true]

theorem rewardSum_append (i : Int) (txs : List Transaction) (t : Transaction) :
    rewardSum i (txs ++ [t]) =
      rewardSum i txs
        + (if t.uid = i ∧ t.purpose ≠ "Fine" then Int.fdiv t.amount.toInt 100 else 0) := by
  unfold rewardSum
  rw [List.filter_append, List.map_append, List.sum_append]
  by_cases h : t.uid = i ∧ t.purpose ≠ "Fine"
  · have hb : (t.uid == i && t.purpose != "Fine") = true := by simp [h.1, h.2]
    simp only [List.filter, hb]
    simp [h]
  · have : (t.uid == i && t.purpose != "Fine") = false := by
      by_cases h1 : t.uid = i
      · have h2 : t.purpose = "Fine" := by
          by_contra hc; exact h ⟨h1, hc⟩
        simp [h2]
      · simp [h1]
    simp only [List.filter, this]
    simp [h]

theorem rewardSum_eq_zero (i : Int) (txs : List Transaction)
    (h : ∀ t ∈ txs, t.uid ≠ i) : rewardSum i txs = 0 := by
  unfold rewardSum
  have : txs.filter (fun t => t.uid == i && t.purpose != "Fine") = [] := by
    rw [List.filter_eq_nil_iff]
    intro t ht
    simp [h t ht]
  simp [this]

theorem paidTotal_append (txs l : List Transaction) :
    paidTotal (txs ++ l) = paidTotal txs + paidTotal l := by
  unfold paidTotal
  rw [List.map_append, List.sum_append]

theorem SafeLedger.of_append {txs l : List Transaction} (h : SafeLedger (txs ++ l)) :
    SafeLedger txs := by
  refine ⟨fun t ht => h.1 t (List.mem_append_left _ ht), ?_⟩
  have := h.2
  rw [paidTotal_append] at this
  omega

theorem rewardSum_natAbs_le (i : Int) (txs : List Transaction) :
    (rewardSum i txs).natAbs ≤ paidTotal txs := by
  induction txs with
  | nil => simp [rewardSum, paidTotal]
  | cons t ts ih =>
    have hp : paidTotal (t :: ts) = t.amount.toInt.natAbs + paidTotal ts := by
      simp [paidTotal]
    rw [hp]
    by_cases hb : (t.uid == i && t.purpose != "Fine") = true
    · have hr : rewardSum i (t :: ts) = Int.fdiv t.amount.toInt 100 + rewardSum i ts := by
        simp only [rewardSum, List.filter_cons, hb, if_true, List.map_cons, List.sum_cons]
      rw [hr]
      have h1 := natAbs_fdiv_hundred_le t.amount.toInt
      have h2 := Int.natAbs_add_le (Int.fdiv t.amount.toInt 100) (rewardSum i ts)
      omega
    · have hr : rewardSum i (t :: ts) = rewardSum i ts := by
        simp only [rewardSum, List.filter_cons, hb, if_false, Bool.false_eq_true]
      rw [hr]
      omega

theorem seedRewards_bounds (i : Int) : 0 ≤ seedRewards i ∧ seedRewards i ≤ 40 := by
  unfold seedRewards seedUsers
  by_cases h1 : i = 1
  · subst h1; decide
  · by_cases h2 : i = 2
    · subst h2; decide
    · have e1 : ((1 : Int) == i) = false := by simpa using fun hc => h1 hc.symm
      have e2 : ((2 : Int) == i) = false := by simpa using fun hc => h2 hc.symm
      simp [List.find?, e1, e2]

/-- Balances of a safe ledger stay inside the safe-integer range. -/
theorem balance_safe (i : Int) {txs : List Transaction} (h : 40 + paidTotal txs < 2 ^ 53) :
    (seedRewards i + rewardSum i txs).natAbs < 2 ^ 53 := by
  have h1 := seedRewards_bounds i
  have h2 := rewardSum_natAbs_le i txs
  have h3 := Int.natAbs_add_le (seedRewards i) (rewardSum i txs)
  omega

/-- What `UI.pay` does on an accepted non-fine payment inside the safe-integer range: the
record found under the session user's id gains `floor(A / 100)` exactly. -/
theorem pay_nonFine_safe (host : Host) (now : Nat → Int) (purpose amt : String) (s : App)
    (su u : User) (r A : Int)
    (hs : s.user = some su)
    (hu : s.db.users.find? (fun x => x.id == su.id) = some u)
    (hr : u.rewards = Num.fin r)
    (hA : parseInt amt = some (Num.fin A)) (hA0 : A ≠ 0)
    (hAs : A.natAbs < 2 ^ 53) (hbs : (r + Int.fdiv A 100).natAbs < 2 ^ 53)
    (hp : purpose ≠ "Fine") :
    UI.pay host now purpose amt s =
      ({ db := UI.notify now 2 su.id
            ("Payment ₹" ++ host.showNum (JsNum.fin (A : ℚ)) ++ " successful. Rewards updated: "
              ++ host.showNum (JsNum.fin ((r + Int.fdiv A 100 : Int) : ℚ)) ++ " pts")
            { s.db with
              transactions := s.db.transactions ++
                [{ id := now 0, uid := su.id, purpose := purpose, amount := Num.fin A,
                   ts := now 1 }]
              users := updateFirst (fun x => x.id == su.id)
                (fun _ => { u with rewards := Num.fin (r + Int.fdiv A 100) }) s.db.users },
         user := some { u with rewards := Num.fin (r + Int.fdiv A 100) } },
        Outcome.done) := by
  have hf : (Num.fin A).isFalsy = false := by simp [Num.isFalsy, hA0]
  have hadd : Num.add u.rewards.orZero (Num.fin A).floorDiv100 = Num.fin (r + Int.fdiv A 100) := by
    rw [hr, Num.orZero_fin]
    show Num.add (Num.fin r) (Num.fin (floorDiv100 A)) = _
    rw [floorDiv100_safe A hAs, Num.add_fin_safe _ _ hbs]
  rw [pay_nonFine host now purpose amt s su u (Num.fin A) hs hu hA hf hp, hadd]
  rfl

theorem RewardInv.of_frame {s s1 : App} (h : RewardInv s)
    (hu : s1.db.users = s.db.users) (ht : s1.db.transactions = s.db.transactions)
    (hs : s1.user = s.user) : RewardInv s1 := by
  constructor
  · rw [hu]; exact h.seedIds
  · rw [hu, hs]; exact h.session
  · rw [hu, ht]; exact h.txOwner
  · rw [hu, ht]; exact h.balance

theorem seedRewards_eq_zero {s : App} (h : RewardInv s) (i : Int)
    (hi : i ∉ s.db.users.map User.id) : seedRewards i = 0 := by
  unfold seedRewards
  cases hf : seedUsers.find? (fun x => x.id == i) with
  | none => rfl
  | some x =>
    exfalso
    have hx := List.mem_of_find?_eq_some hf
    have hid : x.id = i := by simpa using List.find?_some hf
    exact hi (hid ▸ h.seedIds x hx)

theorem RewardInv.seeded : RewardInv seededApp := by
  constructor
  · intro x hx
    exact List.mem_map_of_mem _ hx
  · intro su h; cases h
  · intro t ht; cases ht
  · intro i u hf
    have : rewardSum i seededApp.db.transactions = 0 := rfl
    rw [this, add_zero]
    have hf' : seedUsers.find? (fun x => x.id == i) = some u := hf
    have hu : u ∈ seedUsers := List.mem_of_find?_eq_some hf'
    have hs : seedRewards i = u.rewards.toInt := by
      unfold seedRewards
      rw [hf']; rfl
    rw [hs]
    simp only [seedUsers, List.mem_cons, List.mem_singleton, List.not_mem_nil, or_false] at hu
    rcases hu with hu | hu <;> subst hu <;> rfl

theorem RewardInv.register (now : Nat → Int) (n e r p : String) {s : App} (h : RewardInv s) :
    RewardInv (UI.register now n e r p s).1 := by
  unfold UI.register
  simp only
  split_ifs with h1 h2
  · exact h
  · exact h
  · constructor
    · intro x hx
      simp only [List.map_append, List.mem_append]
      exact Or.inl (h.seedIds x hx)
    · intro su hsu
      simp only [List.map_append, List.mem_append]
      exact Or.inl (h.session su hsu)
    · intro t ht
      simp only [List.map_append, List.mem_append]
      exact Or.inl (h.txOwner t ht)
    · intro i u hf
      simp only [List.find?_append] at hf
      cases hold : s.db.users.find? (fun x => x.id == i) with
      | some v =>
        rw [hold] at hf
        simp only [Option.or_some, Option.some.injEq] at hf
        subst hf
        exact h.balance i v hold
      | none =>
        rw [hold] at hf
        have hi : i ∉ s.db.users.map User.id := (find?_id_eq_none_iff _ _).1 hold
        have hz := seedRewards_eq_zero h i hi
        have hr : rewardSum i s.db.transactions = 0 :=
          rewardSum_eq_zero i _ (fun t ht hc => hi (hc ▸ h.txOwner t ht))
        simp only [Option.none_or] at hf
        have hu : u.rewards = 0 := by
          simp only [List.find?] at hf
          split at hf
          · cases hf; rfl
          · cases hf
        show u.rewards = Num.fin (seedRewards i + rewardSum i s.db.transactions)
        rw [hu, hz, hr]; rfl

theorem RewardInv.login (e p : String) {s : App} (h : RewardInv s) :
    RewardInv (UI.login e p s).1 := by
  unfold UI.login
  simp only
  split
  · exact h
  · next user hf =>
    constructor
    · exact h.seedIds
    · intro su hsu
      simp only [Option.some.injEq] at hsu
      subst hsu
      exact List.mem_map_of_mem _ (List.mem_of_find?_eq_some hf)
    · exact h.txOwner
    · exact h.balance

theorem RewardInv.pay (host : Host) (now : Nat → Int) (purpose amt : String) {s : App}
    (h : RewardInv s) (hsafe : SafeLedger (UI.pay host now purpose amt s).1.db.transactions) :
    RewardInv (UI.pay host now purpose amt s).1 := by
  by_cases hrej : amt = "" ∨ parseInt amt = none ∨ parseInt amt = some 0
  · rw [pay_rejects host now purpose amt s hrej]; exact h
  · have hne : amt ≠ "" := fun hc => hrej (Or.inl hc)
    cases hA : parseInt amt with
    | none => exact absurd (Or.inr (Or.inl hA)) hrej
    | some amount =>
      have hA0 : amount.isFalsy = false := by
        cases hf : amount.isFalsy with
        | false => rfl
        | true =>
          exact absurd (Or.inr (Or.inr (((isFalsy_of_parseInt hA).1 hf) ▸ hA))) hrej
      cases hs : s.user with
      | none =>
        have : UI.pay host now purpose amt s = (s, Outcome.fault) := by
          simp [UI.pay, strOr_of_parseInt hA, hA, hA0, hs]
        rw [this]; exact h
      | some su =>
        have hmem := h.session su hs
        by_cases hp : purpose = "Fine"
        · have := pay_fine host now amt s su amount hs hA hA0
          rw [← hp] at this
          rw [this]
          constructor
          · exact h.seedIds
          · intro v hv
            simp only [Option.some.injEq] at hv
            subst hv
            exact hmem
          · intro t ht
            simp only [UI.notify, List.mem_append, List.mem_singleton] at ht
            rcases ht with ht | ht
            · exact h.txOwner t ht
            · subst ht; exact hmem
          · intro i u hf
            simp only [UI.notify] at hf ⊢
            rw [rewardSum_append]
            simp only [hp, ne_eq, not_true_eq_false, and_false, if_false, add_zero]
            exact h.balance i u hf
        · cases hu : s.db.users.find? (fun x => x.id == su.id) with
          | none => exact absurd hmem ((find?_id_eq_none_iff _ _).1 hu)
          | some u =>
            have hgen := pay_nonFine host now purpose amt s su u amount hs hu hA hA0 hp
            rw [hgen] at hsafe
            simp only [UI.notify] at hsafe
            obtain ⟨A, hAst⟩ := Num.eq_fin_of_isFinite
              (hsafe.1 _ (List.mem_append_right _ (List.mem_singleton.2 rfl)))
            have hAfin : amount = Num.fin A := Num.stored_eq_fin hAst
            subst hAfin
            have hA0' : A ≠ 0 := by
              intro hc; subst hc; simp [Num.isFalsy] at hA0
            have htot := hsafe.2
            rw [paidTotal_append] at htot
            have hone : paidTotal [(⟨now 0, su.id, purpose, (Num.fin A).stored, now 1⟩ :
                Transaction)] = A.natAbs := by
              simp [paidTotal, Num.stored, Num.toInt]
            rw [hone] at htot
            have hr := h.balance su.id u hu
            have hbal : (seedRewards su.id + rewardSum su.id s.db.transactions
                + Int.fdiv A 100).natAbs < 2 ^ 53 := by
              have h1 := seedRewards_bounds su.id
              have h2 := rewardSum_natAbs_le su.id s.db.transactions
              have h3 := natAbs_fdiv_hundred_le A
              omega
            rw [pay_nonFine_safe host now purpose amt s su u _ A hs hu hr hA hA0'
              (by omega) hbal hp]
            have hid : u.id = su.id := by simpa using List.find?_some hu
            have hids : (updateFirst (fun x : User => x.id == su.id)
                (fun _ => ({ u with rewards := Num.fin (seedRewards su.id
                  + rewardSum su.id s.db.transactions + Int.fdiv A 100) } : User))
                s.db.users).map User.id = s.db.users.map User.id := by
              induction s.db.users with
              | nil => rfl
              | cons x xs ih =>
                by_cases hx : x.id = su.id
                · simp [updateFirst, hx, hid]
                · simp [updateFirst, hx, ih]
            constructor
            · intro x hx
              simp only [UI.notify, hids]
              exact h.seedIds x hx
            · intro v hv
              simp only [Option.some.injEq] at hv
              subst hv
              simp only [UI.notify, hids]
              rw [hid]
              exact hmem
            · intro t ht
              simp only [UI.notify, hids, List.mem_append, List.mem_singleton] at ht ⊢
              rcases ht with ht | ht
              · exact h.txOwner t ht
              · subst ht; exact hmem
            · intro i v hf
              simp only [UI.notify] at hf ⊢
              rw [rewardSum_append]
              by_cases hi : su.id = i
              · subst hi
                rw [find?_updateFirst_same (fun x : User => x.id == su.id) _ s.db.users u hu
                  (by simp [hid])] at hf
                simp only [Option.some.injEq] at hf
                subst hf
                simp only [hp, ne_eq, not_false_eq_true, and_self, if_true, Num.toInt]
                rw [add_assoc]
              · rw [find?_updateFirst_other (fun x : User => x.id == su.id)
                  (fun x : User => x.id == i) _ s.db.users
                  (by
                    intro x hx
                    have hx' : x.id = su.id := by simpa using hx
                    constructor
                    · simp [hx', hi]
                    · simp [hid, hi])] at hf
                simp only [hi, false_and, if_false, add_zero]
                exact h.balance i v hf

/-- Every operation leaves the transactions as they are or appends to them. -/
theorem run_transactions (a : Action) (s : App) :
    ∃ l, (UI.run a s).1.db.transactions = s.db.transactions ++ l := by
  cases a with
  | register now n e r p =>
    refine ⟨[], ?_⟩
    simp only [UI.run, UI.register, List.append_nil]
    split_ifs <;> rfl
  | login e p =>
    refine ⟨[], ?_⟩
    simp only [UI.run, UI.login, List.append_nil]
    split <;> rfl
  | logout => exact ⟨[], by simp [UI.run, UI.logout]⟩
  | addBooking host now d t f ad =>
    refine ⟨[], ?_⟩
    simp only [UI.run, UI.addBooking, List.append_nil]
    split_ifs
    · rfl
    · cases hs : s.user <;> simp [UI.notify]
  | pay host now p amt =>
    by_cases hrej : amt = "" ∨ parseInt amt = none ∨ parseInt amt = some 0
    · exact ⟨[], by simp [UI.run, pay_rejects host now p amt s hrej]⟩
    · cases hA : parseInt amt with
      | none => exact absurd (Or.inr (Or.inl hA)) hrej
      | some amount =>
        have hA0 : amount.isFalsy = false := by
          cases hf : amount.isFalsy with
          | false => rfl
          | true =>
            exact absurd (Or.inr (Or.inr (((isFalsy_of_parseInt hA).1 hf) ▸ hA))) hrej
        cases hs : s.user with
        | none =>
          refine ⟨[], ?_⟩
          simp [UI.run, UI.pay, strOr_of_parseInt hA, hA, hA0, hs]
        | some su =>
          refine ⟨[⟨now 0, su.id, p, amount.stored, now 1⟩], ?_⟩
          by_cases hp : p = "Fine"
          · subst hp
            simp only [UI.run]
            rw [pay_fine host now amt s su amount hs hA hA0]
            rfl
          · cases hu : s.db.users.find? (fun x => x.id == su.id) with
            | none => simp [UI.run, UI.pay, strOr_of_parseInt hA, hA, hA0, hs, hp, hu]
            | some u =>
              simp only [UI.run]
              rw [pay_nonFine host now p amt s su u amount hs hu hA hA0 hp]
              rfl
  | capture host now d t k =>
    refine ⟨[], ?_⟩
    simp only [UI.run, UI.capture, List.append_nil]
    split_ifs
    · rfl
    · cases hs : s.user <;> simp [UI.notify]
  | raiseTicket now r m =>
    refine ⟨[], ?_⟩
    simp only [UI.run, UI.raiseTicket, List.append_nil]
    split_ifs
    · rfl
    · cases hs : s.user <;> simp [UI.notify]
  | completeModule now id =>
    refine ⟨[], ?_⟩
    simp only [UI.run, UI.completeModule, List.append_nil]
    cases s.db.training.find? (fun x => x.id == id) with
    | none => rfl
    | some m => cases hs : s.user <;> simp [UI.notify]

theorem RewardInv.step (a : Action) {s : App} (h : RewardInv s)
    (hsafe : SafeLedger (UI.run a s).1.db.transactions) : RewardInv (UI.run a s).1 := by
  cases a with
  | register now n e r p => exact h.register now n e r p
  | login e p => exact h.login e p
  | logout =>
    constructor
    · exact h.seedIds
    · intro su hsu; cases hsu
    · exact h.txOwner
    · exact h.balance
  | addBooking host now d t f ad =>
    apply h.of_frame <;>
      · simp only [UI.run, UI.addBooking]
        split_ifs
        · rfl
        · cases hs : s.user <;> simp [hs, UI.notify]
  | pay host now p amt => exact h.pay host now p amt hsafe
  | capture host now d t k =>
    apply h.of_frame <;>
      · simp only [UI.run, UI.capture]
        split_ifs
        · rfl
        · cases hs : s.user <;> simp [hs, UI.notify]
  | raiseTicket now r m =>
    apply h.of_frame <;>
      · simp only [UI.run, UI.raiseTicket]
        split_ifs
        · rfl
        · cases hs : s.user <;> simp [hs, UI.notify]
  | completeModule now id =>
    apply h.of_frame <;>
      · simp only [UI.run, UI.completeModule]
        cases s.db.training.find? (fun x => x.id == id) with
        | none => rfl
        | some m => cases hs : s.user <;> simp [hs, UI.notify]

/-- The reward invariant holds in every reachable state whose ledger is inside the
safe-integer range. -/
theorem RewardInv.of_reachable {s : App} (h : Reachable s)
    (hsafe : SafeLedger s.db.transactions) : RewardInv s := by
  induction h with
  | seeded => exact RewardInv.seeded
  | step a _ ih =>
    obtain ⟨l, hl⟩ := run_transactions a _
    have hprev : SafeLedger _ := SafeLedger.of_append (hl ▸ hsafe)
    exact (ih hprev).step a hsafe

theorem Reachable.runAll (as : List Action) {s : App} (h : Reachable s) :
    Reachable (UI.runAll as s) := by
  induction as generalizing s with
  | nil => exact h
  | cons a as ih => exact ih (Reachable.step a h)

theorem Store.read_congr (J : JsonApi) {ls ls1 : LocalStorage} {key : String} (d : JSVal)
    (h : ls key = ls1 key) : Store.read J ls key d = Store.read J ls1 key d := by
  unfold Store.read
  rw [h]

theorem seedKey_other (J : JsonApi) (key : String) (b : JSVal) (ls : LocalStorage)
    {x : String} (hx : x ≠ key) : seedKey J key b ls x = ls x := by
  unfold seedKey
  split
  · simp [Store.write, LocalStorage.setItem, hx]
  · rfl

theorem seedKey_congr (J : JsonApi) (key : String) (b : JSVal) {ls ls1 : LocalStorage}
    (h : ls key = ls1 key) : seedKey J key b ls key = seedKey J key b ls1 key := by
  unfold seedKey
  rw [Store.read_congr J JSVal.undefined h]
  split
  · simp [Store.write, LocalStorage.setItem]
  · exact h

theorem seedKey_idem_at (J : JsonApi) (key : String) (b : JSVal) (ls : LocalStorage) :
    seedKey J key b (seedKey J key b ls) key = seedKey J key b ls key := by
  by_cases h1 : (Store.read J ls key JSVal.undefined).isFalsy = true
  · have e1 : seedKey J key b ls = Store.write J ls key b := by simp [seedKey, h1]
    rw [e1]
    unfold seedKey
    split
    · simp [Store.write, LocalStorage.setItem]
    · rfl
  · have e1 : seedKey J key b ls = ls := by simp [seedKey, h1]
    rw [e1, e1]

theorem seedSteps_apply (J : JsonApi) (tbl : List (String × JSVal))
    (hnd : (tbl.map Prod.fst).Nodup) (ls : LocalStorage) (x : String) :
    seedSteps J tbl ls x =
      match tbl.lookup x with
      | none => ls x
      | some b => seedKey J x b ls x := by
  induction tbl generalizing ls with
  | nil => rfl
  | cons kb rest ih =>
    obtain ⟨k, b⟩ := kb
    have hnd' : (rest.map Prod.fst).Nodup := (List.nodup_cons.1 hnd).2
    have hk : k ∉ rest.map Prod.fst := (List.nodup_cons.1 hnd).1
    have hstep : seedSteps J ((k, b) :: rest) ls = seedSteps J rest (seedKey J k b ls) := rfl
    rw [hstep, ih hnd']
    by_cases hx : x = k
    · subst hx
      have hl : rest.lookup x = none := by
        rw [List.lookup_eq_none_iff]
        intro p hp
        have hne : x ≠ p.1 := fun hc => hk (List.mem_map.2 ⟨p, hp, hc.symm⟩)
        simpa using hne
      simp [hl, List.lookup]
    · have hb : (x == k) = false := by simpa using hx
      simp only [List.lookup, hb]
      cases hl : rest.lookup x with
      | none => exact seedKey_other J k b ls hx
      | some b1 => exact seedKey_congr J x b1 (seedKey_other J k b ls hx)

theorem seed_eq_seedSteps (J : JsonApi) (ls : LocalStorage) :
    seed J ls = seedSteps J seedTable ls := rfl

theorem seedTable_nodup : (seedTable.map Prod.fst).Nodup := by decide

theorem foldl_max_eq_foldr (l : List ℚ) (a : ℚ) : l.foldl Max.max a = l.foldr Max.max a := by
  induction l generalizing a with
  | nil => rfl
  | cons x xs ih =>
    simp only [List.foldl, List.foldr]
    rw [ih]
    clear ih
    induction xs with
    | nil => simp [max_comm]
    | cons y ys ih2 =>
      simp only [List.foldr]
      rw [ih2, max_left_comm]

theorem chartScale_spec (window : List Capture) :
    1 ≤ chartScale window ∧ (∀ c ∈ window, c.weight ≤ chartScale window)
      ∧ (chartScale window = 1 ∨ ∃ c ∈ window, c.weight = chartScale window) := by
  induction window with
  | nil => simp [chartScale]
  | cons c cs ih =>
    obtain ⟨h1, h2, h3⟩ := ih
    have hc : chartScale (c :: cs) = max c.weight (chartScale cs) := rfl
    refine ⟨?_, ?_, ?_⟩
    · rw [hc]; exact le_max_of_le_right h1
    · intro e he
      rw [hc]
      rcases List.mem_cons.1 he with he | he
      · subst he; exact le_max_left _ _
      · exact le_max_of_le_right (h2 e he)
    · rw [hc]
      rcases le_total c.weight (chartScale cs) with hle | hle
      · rw [max_eq_right hle]
        rcases h3 with h3 | ⟨e, he, hee⟩
        · exact Or.inl h3
        · exact Or.inr ⟨e, List.mem_cons_of_mem _ he, hee⟩
      · rw [max_eq_left hle]
        exact Or.inr ⟨c, List.mem_cons_self _ _, rfl⟩

theorem drawBars_eq (scale : ℚ) (k : Nat) (l : List Capture) :
    drawBars scale (40 + 30 * (k : ℚ)) l
      = (List.range l.length).zipWith (fun i c => chartBar scale (k + i) c) l := by
  induction l generalizing k with
  | nil => simp [drawBars]
  | cons c cs ih =>
    have hx : (40 + 30 * (k : ℚ)) + (20 + 10) = 40 + 30 * ((k + 1 : Nat) : ℚ) := by
      push_cast; ring
    simp only [drawBars, hx, ih (k + 1), List.length_cons, List.range_succ_eq_map,
      List.zipWith_cons_cons, List.zipWith_map_left]
    have hf : (fun i c => chartBar scale (k + 1 + i) c)
        = (fun (a : Nat) b => chartBar scale (k + a.succ) b) := by
      funext i c
      rw [Nat.add_assoc, Nat.add_comm 1 i]
    rw [hf]
    simp [chartBar]


theorem drawBars_heights (scale x : ℚ) (l : List Capture) :
    (drawBars scale x l).map Rect.h = l.map (fun c => c.weight / scale * 120) := by
  induction l generalizing x with
  | nil => rfl
  | cons c cs ih => simp [drawBars, ih]

/-- When identifiers are unique, every record is the one stored under its identifier. -/
theorem find?_id_of_nodup (l : List User) (hnd : (l.map User.id).Nodup) (u : User)
    (hu : u ∈ l) : l.find? (fun x => x.id == u.id) = some u := by
  induction l with
  | nil => cases hu
  | cons x xs ih =>
    have hx : x.id ∉ xs.map User.id := (List.nodup_cons.1 hnd).1
    rcases List.mem_cons.1 hu with h | h
    · subst h; simp [List.find?]
    · have hne : x.id ≠ u.id := fun hc => hx (hc ▸ List.mem_map_of_mem _ h)
      have hb : (x.id == u.id) = false := by simpa using hne
      simp only [List.find?, hb]
      exact ih (List.nodup_cons.1 hnd).2 h

set_option maxRecDepth 100000 in
/-- On an empty `localStorage`, `seed` leaves exactly the collections of `seededDb`. -/
theorem seed_emptyStorage :
    Store.read jsonLite (seed jsonLite emptyStorage) "users" (JSVal.arr [])
        = JSVal.arr (seededDb.users.map User.toJson)
      ∧ Store.read jsonLite (seed jsonLite emptyStorage) "facilities" (JSVal.arr [])
        = JSVal.arr (seededDb.facilities.map Facility.toJson)
      ∧ Store.read jsonLite (seed jsonLite emptyStorage) "training" (JSVal.arr [])
        = JSVal.arr (seededDb.training.map TrainingModule.toJson)
      ∧ ∀ key ∈ ["bookings", "transactions", "captures", "notifications", "tickets"],
          Store.read jsonLite (seed jsonLite emptyStorage) key (JSVal.arr []) = JSVal.arr [] := by
  refine ⟨rfl, rfl, rfl, ?_⟩
  intro key hk
  simp only [List.mem_cons, List.mem_singleton, List.not_mem_nil, or_false] at hk
  rcases hk with h | h | h | h | h <;> subst h <;> rfl

theorem filterAt_const {α : Type} (p : Nat → α → Bool) (q : α → Bool)
    (h : ∀ k x, p k x = q x) (n : Nat) (l : List α) : filterAt p n l = l.filter q := by
  induction l generalizing n with
  | nil => rfl
  | cons x xs ih =>
    cases hq : q x <;> simp [filterAt, List.filter, h n x, ih (n + 1), hq]

theorem paidTotal_filter_le (p : Transaction → Bool) (l : List Transaction) :
    paidTotal (l.filter p) ≤ paidTotal l := by
  induction l with
  | nil => simp
  | cons t ts ih =>
    by_cases hp : p t = true
    · simp only [List.filter_cons, hp, if_true]
      simp only [paidTotal, List.map_cons, List.sum_cons] at ih ⊢
      omega
    · simp only [List.filter_cons, hp, if_false, Bool.false_eq_true]
      simp only [paidTotal, List.map_cons, List.sum_cons] at ih ⊢
      omega

theorem SafeLedger.filter (p : Transaction → Bool) {l : List Transaction} (h : SafeLedger l) :
    SafeLedger (l.filter p) := by
  refine ⟨fun t ht => h.1 t (List.mem_of_mem_filter ht), ?_⟩
  have := paidTotal_filter_le p l
  have := h.2
  omega

/-- Inside the safe-integer range the running sum of `reduce((a, b) => a + b.amount, init)`
is the exact sum. -/
theorem foldl_add_amount (l : List Transaction) (init : Int)
    (hfin : ∀ t ∈ l, ∃ n : Int, t.amount = Num.fin n)
    (hsafe : init.natAbs + paidTotal l < 2 ^ 53) :
    l.foldl (fun a b => Num.add a b.amount) (Num.fin init)
      = Num.fin (init + (l.map (fun t => t.amount.toInt)).sum) := by
  induction l generalizing init with
  | nil => simp
  | cons t ts ih =>
    obtain ⟨n, hn⟩ := hfin t (List.mem_cons_self _ _)
    have hp : paidTotal (t :: ts) = n.natAbs + paidTotal ts := by
      simp [paidTotal, hn, Num.toInt]
    rw [hp] at hsafe
    have hadd : Num.add (Num.fin init) t.amount = Num.fin (init + n) := by
      rw [hn]
      exact Num.add_fin_safe _ _ (by have := Int.natAbs_add_le init n; omega)
    simp only [List.foldl, hadd]
    rw [ih (init + n) (fun x hx => hfin x (List.mem_cons_of_mem _ hx))
      (by have := Int.natAbs_add_le init n; omega)]
    simp [hn, Num.toInt, add_assoc]

/-- What `UI.renderKPI` shows for the logged-in user `u` when every clock reading of the
render is the instant `t` and the ledger is inside the safe-integer range: the number of
that user's bookings dated at or after `t`, the date of the first of them in stored order
(a dash when there is none), the user's reward points, the number of the user's
transactions capped at 30, and the sum of the user's fines (`No fines` when that sum is
zero). -/
theorem renderKPI_spec (host : Host) (dateValue : String → Option Int) (now : Nat → Int)
    (t : Int) (s : App) (u : User) (hs : s.user = some u) (hnow : ∀ k, now k = t)
    (hsafe : SafeLedger s.db.transactions) :
    UI.renderKPI host dateValue now s = some
      { kpiUpcoming := (upcomingOf dateValue t s u).length
        kpiNextDate := match (upcomingOf dateValue t s u).head? with
          | some b => host.fmt b.date
          | none => "—"
        kpiRewards := u.rewards.orZero
        kpiTx := min 30 (s.db.transactions.filter (fun x => x.uid == u.id)).length
        kpiFines := if finesOf s u = 0 then "No fines"
          else "₹" ++ host.showNum (JsNum.fin ((finesOf s u : Int) : ℚ)) ++ " in fines" } := by
  have hup : filterAt (fun k b => notBefore dateValue b.date (now k)) 0
      (s.db.bookings.filter (fun b => b.uid == u.id)) = upcomingOf dateValue t s u := by
    unfold upcomingOf
    exact filterAt_const (fun k (b : Booking) => notBefore dateValue b.date (now k))
      (fun b : Booking => notBefore dateValue b.date t) (fun k b => by simp [hnow k]) 0 _
  have hsf : SafeLedger ((s.db.transactions.filter (fun x => x.uid == u.id)).filter
      (fun x => x.purpose == "Fine")) := (hsafe.filter _).filter _
  have hfines : ((s.db.transactions.filter (fun x => x.uid == u.id)).filter
      (fun x => x.purpose == "Fine")).foldl (fun a b => Num.add a b.amount) 0
        = Num.fin (finesOf s u) := by
    have h0 : (0 : Num) = Num.fin 0 := rfl
    rw [h0, foldl_add_amount _ 0 (fun x hx => Num.eq_fin_of_isFinite (hsf.1 x hx)) (by have := hsf.2; simp only [Int.natAbs_zero]; omega),
      zero_add, List.filter_filter]
    unfold finesOf
    congr 3
    apply List.filter_congr
    intro x _
    exact Bool.and_comm _ _
  have hlen : (lastN 30 (s.db.transactions.filter (fun x => x.uid == u.id))).length
      = min 30 (s.db.transactions.filter (fun x => x.uid == u.id)).length := by
    unfold lastN
    rw [List.length_drop]
    omega
  simp only [UI.renderKPI, hs, hup, hfines, hlen, Num.isFalsy, Num.toJsNum, decide_eq_true_eq]

/-- When the user's upcoming bookings are stored in ascending date order, the booking whose
date `UI.renderKPI` shows is the earliest of them. -/
theorem upcoming_head_earliest (key : Booking → Int) (b : Booking) (rest : List Booking)
    (hsorted : (b :: rest).Pairwise (fun x y => key x ≤ key y)) :
    ∀ c ∈ b :: rest, key b ≤ key c := by
  intro c hc
  rcases List.mem_cons.1 hc with h | h
  · subst h; exact le_refl _
  · exact (List.pairwise_cons.1 hsorted).1 c h


/-! ### The round trip of the concrete codec -/

namespace JsonLite

theorem hex4_control : ∀ n : Fin 32,
    hex4 '0' '0' (hexDigit (n.val / 16)) (hexDigit (n.val % 16)) = some n.val := by
  decide!

theorem parseString_plain (fuel : Nat) (c : Char) (cs acc : List Char) (h1 : c ≠ dq)
    (h2 : ¬ c.toNat < 32) (h3 : c ≠ bs) :
    parseString (fuel + 1) (c :: cs) acc = parseString fuel cs (c :: acc) := by
  rw [parseString]
  simp only [h1, h2, h3, if_false]

theorem parseString_backslash (fuel : Nat) (cs acc : List Char) (ch : Char) (r : List Char)
    (h : readEscape cs = some (ch, r)) :
    parseString (fuel + 1) (bs :: cs) acc = parseString fuel r (ch :: acc) := by
  rw [parseString]
  have h1 : bs ≠ dq := by decide
  have h2 : ¬ bs.toNat < 32 := by decide
  simp only [h1, h2, if_false, if_true, h]

theorem readEscape_control (c : Char) (t : List Char) (hlt : c.toNat < 32) :
    readEscape ('u' :: '0' :: '0' :: hexDigit (c.toNat / 16) :: hexDigit (c.toNat % 16) :: t)
      = some (c, t) := by
  have hu : ('u' : Char) ≠ dq ∧ 'u' ≠ bs ∧ ('u' : Char) ≠ '/' ∧ ('u' : Char) ≠ 'b'
      ∧ ('u' : Char) ≠ 'f' ∧ ('u' : Char) ≠ 'n' ∧ ('u' : Char) ≠ 'r' ∧ ('u' : Char) ≠ 't' := by
    decide
  have hx := hex4_control ⟨c.toNat, hlt⟩
  simp only at hx
  have hlow : c.toNat < 55296 ∨ 57344 ≤ c.toNat := Or.inl (by omega)
  simp only [readEscape, hu.1, hu.2.1, hu.2.2.1, hu.2.2.2.1, hu.2.2.2.2.1, hu.2.2.2.2.2.1,
    hu.2.2.2.2.2.2.1, hu.2.2.2.2.2.2.2, if_false, if_true, readUnicode, readHex4, hx,
    Option.map_some', hlow, Char.ofNat_toNat]

/-- Reading back one escaped character. -/
theorem parseString_escapeChar (fuel : Nat) (c : Char) (t acc : List Char) :
    parseString (fuel + 1) (escapeChar c ++ t) acc = parseString fuel t (c :: acc) := by
  have hc : Char.ofNat c.toNat = c := Char.ofNat_toNat c
  unfold escapeChar
  by_cases h1 : c = dq
  · subst h1
    simp only [if_true, List.cons_append, List.nil_append]
    exact parseString_backslash fuel _ acc dq t (by simp [readEscape])
  simp only [h1, if_false]
  by_cases h2 : c = bs
  · subst h2
    simp only [if_true, List.cons_append, List.nil_append]
    exact parseString_backslash fuel _ acc bs t (by simp [readEscape, h1])
  simp only [h2, if_false]
  by_cases h8 : c.toNat = 8
  · simp only [h8, if_true, List.cons_append, List.nil_append]
    rw [← hc, h8]
    exact parseString_backslash fuel _ acc _ t rfl
  simp only [h8, if_false]
  by_cases h12 : c.toNat = 12
  · simp only [h12, if_true, List.cons_append, List.nil_append]
    rw [← hc, h12]
    exact parseString_backslash fuel _ acc _ t rfl
  simp only [h12, if_false]
  by_cases h10 : c.toNat = 10
  · simp only [h10, if_true, List.cons_append, List.nil_append]
    rw [← hc, h10]
    exact parseString_backslash fuel _ acc _ t rfl
  simp only [h10, if_false]
  by_cases h13 : c.toNat = 13
  · simp only [h13, if_true, List.cons_append, List.nil_append]
    rw [← hc, h13]
    exact parseString_backslash fuel _ acc _ t rfl
  simp only [h13, if_false]
  by_cases h9 : c.toNat = 9
  · simp only [h9, if_true, List.cons_append, List.nil_append]
    rw [← hc, h9]
    exact parseString_backslash fuel _ acc _ t rfl
  simp only [h9, if_false]
  by_cases hlt : c.toNat < 32
  · simp only [hlt, if_true, List.cons_append, List.nil_append]
    exact parseString_backslash fuel _ acc c t (readEscape_control c t hlt)
  · simp only [hlt, if_false, List.cons_append, List.nil_append]
    exact parseString_plain fuel c t acc h1 hlt h2

theorem escapeChar_length_pos (c : Char) : 1 ≤ (escapeChar c).length := by
  unfold escapeChar
  split_ifs <;> simp

theorem escape_cons (c : Char) (cs : List Char) : escape (c :: cs) = escapeChar c ++ escape cs := by
  simp [escape]

/-- Reading back an escaped string up to its closing quote. -/
theorem parseString_escape_all (cs t acc : List Char) (fuel : Nat)
    (hf : (escape cs).length + 1 ≤ fuel) :
    parseString fuel (escape cs ++ dq :: t) acc = some (String.mk (acc.reverse ++ cs), t) := by
  induction cs generalizing acc fuel with
  | nil =>
    obtain ⟨f, rfl⟩ : ∃ f, fuel = f + 1 := ⟨fuel - 1, by omega⟩
    simp only [escape, List.map_nil, List.flatten_nil, List.nil_append, List.append_nil]
    rw [parseString]
    simp
  | cons c cs ih =>
    obtain ⟨f, rfl⟩ : ∃ f, fuel = f + 1 := ⟨fuel - 1, by omega⟩
    rw [escape_cons, List.length_append] at hf
    have := escapeChar_length_pos c
    rw [escape_cons, List.append_assoc, parseString_escapeChar, ih _ _ (by omega)]
    simp

/-- Reading back a string literal after its opening quote. -/
theorem parseString_quote (s : String) (t : List Char) :
    parseString (escape s.data ++ dq :: t).length (escape s.data ++ dq :: t) [] = some (s, t) := by
  rw [parseString_escape_all _ _ _ _ (by simp)]
  rfl

end JsonLite

namespace JsonLite

theorem digitChar_spec (d : Nat) (h : d < 10) :
    (digitChar d).isDigit = true ∧ digitVal (digitChar d) = d ∧ (1 ≤ d → digitChar d ≠ '0')
      ∧ digitChar d ≠ minus := by
  have hall : ∀ d : Fin 10, (digitChar d.val).isDigit = true ∧ digitVal (digitChar d.val) = d.val
      ∧ (1 ≤ d.val → digitChar d.val ≠ '0') ∧ digitChar d.val ≠ minus := by
    decide!
  exact hall ⟨d, h⟩

theorem StartChar.digitChar (d : Nat) (h : d < 10) : StartChar (digitChar d) := by
  have hall : ∀ d : Fin 10, StartChar (JsonLite.digitChar d.val) := by
    unfold StartChar
    decide!
  exact hall ⟨d, h⟩

theorem fixedDigits_length (k n : Nat) : (fixedDigits k n).length = k := by
  induction k generalizing n with
  | zero => rfl
  | succ k ih => simp [fixedDigits, ih]

theorem fixedDigits_isDigit (k n : Nat) : ∀ c ∈ fixedDigits k n, c.isDigit = true := by
  induction k generalizing n with
  | zero => intro c hc; cases hc
  | succ k ih =>
    intro c hc
    simp only [fixedDigits, List.mem_append, List.mem_singleton] at hc
    rcases hc with hc | hc
    · exact ih _ c hc
    · subst hc
      exact (digitChar_spec _ (Nat.mod_lt _ (by norm_num))).1

theorem digitsVal_snoc (xs : List Char) (c : Char) :
    digitsVal (xs ++ [c]) = 10 * digitsVal xs + digitVal c := by
  simp [digitsVal, List.foldl_append]

theorem digitsVal_fixedDigits (k n : Nat) : digitsVal (fixedDigits k n) = n % 10 ^ k := by
  induction k generalizing n with
  | zero => simp [fixedDigits, digitsVal, Nat.mod_one]
  | succ k ih =>
    rw [fixedDigits, digitsVal_snoc, ih, (digitChar_spec _ (Nat.mod_lt _ (by norm_num))).2.1,
      pow_succ', Nat.mod_mul]
    omega

theorem foldl_digits (ys : List Char) (a : Nat) :
    ys.foldl (fun acc c => 10 * acc + digitVal c) a
      = a * 10 ^ ys.length + ys.foldl (fun acc c => 10 * acc + digitVal c) 0 := by
  induction ys generalizing a with
  | nil => simp
  | cons c cs ih =>
    simp only [List.foldl_cons, List.length_cons]
    rw [ih (10 * a + digitVal c), ih (10 * 0 + digitVal c)]
    ring

theorem digitsVal_append (xs ys : List Char) :
    digitsVal (xs ++ ys) = digitsVal xs * 10 ^ ys.length + digitsVal ys := by
  unfold digitsVal
  rw [List.foldl_append, foldl_digits]

theorem numDigitsAux_pos (fuel n : Nat) : 1 ≤ numDigitsAux fuel n := by
  cases fuel with
  | zero => simp [numDigitsAux]
  | succ f =>
    rw [numDigitsAux]
    split <;> omega

theorem lt_pow_numDigitsAux : ∀ fuel n, n ≤ fuel → n < 10 ^ numDigitsAux fuel n := by
  intro fuel
  induction fuel with
  | zero => intro n hn; simp [numDigitsAux]; omega
  | succ f ih =>
    intro n hn
    rw [numDigitsAux]
    split
    · next h => simpa using h
    · next h =>
      have h1 := ih (n / 10) (by omega)
      rw [pow_succ]
      omega

theorem pow_numDigitsAux_le : ∀ fuel n, 1 ≤ n → 10 ^ (numDigitsAux fuel n - 1) ≤ n := by
  intro fuel
  induction fuel with
  | zero => intro n hn; simpa [numDigitsAux] using hn
  | succ f ih =>
    intro n hn
    rw [numDigitsAux]
    split
    · simpa using hn
    · next h =>
      have h1 := ih (n / 10) (by omega)
      have h2 := numDigitsAux_pos f (n / 10)
      have h3 : numDigitsAux f (n / 10) + 1 - 1 = (numDigitsAux f (n / 10) - 1) + 1 := by omega
      rw [h3, pow_succ]
      omega

theorem numDigitsAux_small (fuel n : Nat) (h : n < 10) : numDigitsAux fuel n = 1 := by
  cases fuel with
  | zero => rfl
  | succ f => simp [numDigitsAux, h]

theorem fixedDigits_head (k n : Nat) :
    (fixedDigits (k + 1) n).head? = some (digitChar (n / 10 ^ k % 10)) := by
  induction k generalizing n with
  | zero => simp [fixedDigits]
  | succ k ih =>
    rw [fixedDigits, List.head?_append_of_ne_nil _ (by
      intro hc
      have := fixedDigits_length (k + 1) (n / 10)
      rw [hc] at this
      simp at this), ih, Nat.div_div_eq_div_mul, pow_succ, Nat.mul_comm]

/-- The digits of a natural number: at least one, all decimal digits, no leading zero
unless the number is a single digit, and their value is the number. -/
theorem natDigits_spec (m : Nat) :
    ∃ c cs, natDigits m = c :: cs ∧ StartChar c ∧ c ≠ minus
      ∧ (∀ x ∈ natDigits m, x.isDigit = true)
      ∧ (cs ≠ [] → c ≠ '0') ∧ digitsVal (natDigits m) = m := by
  have hpos := numDigitsAux_pos m m
  obtain ⟨L, hL⟩ : ∃ L, numDigitsAux m m = L + 1 := ⟨numDigitsAux m m - 1, by omega⟩
  have hhead : (natDigits m).head? = some (digitChar (m / 10 ^ L % 10)) := by
    unfold natDigits
    rw [hL, fixedDigits_head]
  have hlen : (natDigits m).length = L + 1 := by
    unfold natDigits
    rw [fixedDigits_length, hL]
  have hdig : ∀ x ∈ natDigits m, x.isDigit = true := fixedDigits_isDigit _ _
  have hval : digitsVal (natDigits m) = m := by
    unfold natDigits
    rw [digitsVal_fixedDigits]
    exact Nat.mod_eq_of_lt (lt_pow_numDigitsAux m m (le_refl _))
  cases hnd : natDigits m with
  | nil => rw [hnd] at hlen; simp at hlen
  | cons c cs =>
    rw [hnd] at hhead hlen
    simp only [List.head?_cons, Option.some.injEq] at hhead
    have hspec := digitChar_spec (m / 10 ^ L % 10) (Nat.mod_lt _ (by norm_num))
    refine ⟨c, cs, rfl, ?_, ?_, ?_, ?_, ?_⟩
    · rw [hhead]; exact StartChar.digitChar _ (Nat.mod_lt _ (by norm_num))
    · rw [hhead]; exact hspec.2.2.2
    · rw [← hnd]; exact hdig
    · intro hcs
      rw [hhead]
      apply hspec.2.2.1
      have hL1 : 1 ≤ L := by
        cases cs with
        | nil => exact absurd rfl hcs
        | cons _ _ => simp at hlen; omega
      have hm10 : 10 ≤ m := by
        by_contra hlt
        have := numDigitsAux_small m m (by omega)
        omega
      have hlow := pow_numDigitsAux_le m m (by omega)
      have hup := lt_pow_numDigitsAux m m (le_refl _)
      rw [hL] at hlow hup
      simp only [Nat.add_sub_cancel] at hlow
      have hq1 : 1 ≤ m / 10 ^ L := (Nat.one_le_div_iff (by positivity)).2 hlow
      have hq2 : m / 10 ^ L < 10 := by
        rw [Nat.div_lt_iff_lt_mul (by positivity)]
        rw [pow_succ] at hup
        omega
      rw [Nat.mod_eq_of_lt hq2]
      exact hq1
    · rw [← hnd]; exact hval

theorem takeWhile_digits (ds rest : List Char) (hd : ∀ c ∈ ds, c.isDigit = true)
    (hr : ∀ c, rest.head? = some c → c.isDigit = false) :
    (ds ++ rest).takeWhile Char.isDigit = ds ∧ (ds ++ rest).dropWhile Char.isDigit = rest := by
  induction ds with
  | nil =>
    cases rest with
    | nil => simp
    | cons c r =>
      have := hr c rfl
      simp [List.takeWhile, List.dropWhile, this]
  | cons c cs ih =>
    have hc := hd c (List.mem_cons_self _ _)
    have := ih (fun x hx => hd x (List.mem_cons_of_mem _ hx))
    simp [List.takeWhile, List.dropWhile, hc, this.1, this.2]

end JsonLite

namespace JsonLite

theorem Delim.head {rest : List Char} (h : Delim rest) (c : Char) (hc : rest.head? = some c) :
    c.isDigit = false ∧ c ≠ dot ∧ c ≠ 'e' ∧ c ≠ 'E' ∧ isWs c = false := by
  rcases h c hc with h | h | h <;> subst h <;> decide

theorem Delim.head_ne {rest : List Char} (h : Delim rest) (x : Char)
    (hx : x ≠ comma ∧ x ≠ rbracket ∧ x ≠ rbrace) : (rest.head? == some x) = false := by
  cases hr : rest.head? with
  | none => rfl
  | some c =>
    have : c ≠ x := by
      rcases h c hr with h | h | h <;> subst h
      · exact fun hc => hx.1 hc.symm
      · exact fun hc => hx.2.1 hc.symm
      · exact fun hc => hx.2.2 hc.symm
    simpa using this

/-- Reading back the digits of an unsigned decimal with `k` decimal places. -/
theorem parseDecimal_show (a X k : Nat) (rest : List Char) (hX : X < 10 ^ k)
    (hrest : Delim rest) :
    parseDecimal (natDigits a ++ ((if k = 0 then [] else dot :: fixedDigits k X) ++ rest))
      = some (decimalValue (a * 10 ^ k + X) (0 - (k : Int)), rest) := by
  obtain ⟨c, cs, hnd, hc, _, hall, hlead, hval⟩ := natDigits_spec a
  have hdot : (rest.head? == some dot) = false := hrest.head_ne dot (by decide)
  have he : (rest.head? == some 'e') = false := hrest.head_ne 'e' (by decide)
  have hE : (rest.head? == some 'E') = false := hrest.head_ne 'E' (by decide)
  have hrd : ∀ x, rest.head? = some x → x.isDigit = false := fun x hx => (hrest.head x hx).1
  have hlz : (decide (1 < (natDigits a).length) && (natDigits a).head? == some '0') = false := by
    rw [hnd]
    cases cs with
    | nil => simp
    | cons y ys =>
      have := hlead (by simp)
      simp [this]
  have hne : (natDigits a).isEmpty = false := by rw [hnd]; rfl
  have hnil : digitsVal [] = 0 := rfl
  by_cases hk : k = 0
  · subst hk
    have hX0 : X = 0 := by simpa using hX
    subst hX0
    obtain ⟨ht, hd⟩ := takeWhile_digits (natDigits a) rest hall hrd
    simp only [if_true, List.nil_append]
    unfold parseDecimal
    simp only [ht, hd, hne, hlz, hdot, he, hE, Bool.false_eq_true, if_false, Bool.false_and,
      Bool.or_false, List.append_nil, hval, List.length_nil, List.isEmpty_nil, hnil]
    simp
  · simp only [hk, if_false]
    have hdd : ∀ x, (dot :: (fixedDigits k X ++ rest)).head? = some x → x.isDigit = false := by
      intro x hx
      simp only [List.head?_cons, Option.some.injEq] at hx
      subst hx
      decide
    obtain ⟨ht, hd⟩ := takeWhile_digits (natDigits a) (dot :: (fixedDigits k X ++ rest)) hall hdd
    obtain ⟨ht2, hd2⟩ := takeWhile_digits (fixedDigits k X) rest (fixedDigits_isDigit k X) hrd
    have hfe : (fixedDigits k X).isEmpty = false := by
      cases hf : fixedDigits k X with
      | nil =>
        have := fixedDigits_length k X
        rw [hf] at this
        exact absurd this.symm hk
      | cons _ _ => rfl
    have hv : digitsVal (natDigits a ++ fixedDigits k X) = a * 10 ^ k + X := by
      rw [digitsVal_append, hval, fixedDigits_length, digitsVal_fixedDigits, Nat.mod_eq_of_lt hX]
    unfold parseDecimal
    simp only [List.cons_append, ht, hd, hne, hlz, List.head?_cons, beq_self_eq_true, if_true,
      List.tail_cons, ht2, hd2, hfe, Bool.true_and, Bool.false_eq_true, if_false, he, hE,
      Bool.or_false, Bool.false_and, hv, fixedDigits_length, List.isEmpty_nil, hnil]
    simp

end JsonLite

theorem ilog2Aux_pow (k : Nat) : ∀ fuel, k ≤ fuel → ilog2Aux fuel (2 ^ k) = k := by
  induction k with
  | zero =>
    intro fuel _
    cases fuel <;> simp [ilog2Aux]
  | succ k ih =>
    intro fuel hf
    obtain ⟨f, rfl⟩ : ∃ f, fuel = f + 1 := ⟨fuel - 1, by omega⟩
    have h2 : ¬ 2 ^ (k + 1) < 2 := by
      have : 1 ≤ 2 ^ k := Nat.one_le_two_pow
      rw [pow_succ]; omega
    have hd : 2 ^ (k + 1) / 2 = 2 ^ k := by
      rw [pow_succ]; exact Nat.mul_div_cancel _ (by norm_num)
    rw [ilog2Aux]
    simp only [h2, if_false, hd]
    rw [ih f (by omega)]

theorem ilog2_pow (k : Nat) : ilog2 (2 ^ k) = k :=
  ilog2Aux_pow k _ (le_of_lt (Nat.lt_two_pow k))

/-- The denominator of a double is a power of two. -/
theorem den_of_double {q : ℚ} (h : roundQ q = JsNum.fin q) : ∃ k, q.den = 2 ^ k := by
  unfold roundQ roundFrac at h
  split at h
  · cases h
  · simp only [JsNum.fin.injEq] at h
    rw [← h]
    unfold dblValue
    split
    · refine ⟨0, ?_⟩
      rw [Rat.den_intCast]
      rfl
    · have hd := Rat.den_dvd (if decide (q < 0) = true then
          -((nearestDouble q.num.natAbs q.den).1 : Int)
        else ((nearestDouble q.num.natAbs q.den).1 : Int))
        ((2 ^ (-(nearestDouble q.num.natAbs q.den).2).toNat : Nat) : Int)
      rw [← Rat.mkRat_eq_divInt] at hd
      have hd2 := Int.natCast_dvd_natCast.1 hd
      obtain ⟨i, _, hi⟩ := (Nat.dvd_prime_pow Nat.prime_two).1 hd2
      exact ⟨i, hi⟩

namespace JsonLite

/-- The value of the digits written for `n / 2 ^ k`. -/
theorem decimalValue_show (n k : Nat) :
    decimalValue (n / 2 ^ k * 10 ^ k + n % 2 ^ k * 5 ^ k) (0 - (k : Int))
      = (n : ℚ) / ((2 ^ k : Nat) : ℚ) := by
  have hD : n / 2 ^ k * 10 ^ k + n % 2 ^ k * 5 ^ k = 5 ^ k * n := by
    have h10 : (10 : Nat) ^ k = 2 ^ k * 5 ^ k := by rw [← Nat.mul_pow]
    have hn := Nat.div_add_mod n (2 ^ k)
    calc n / 2 ^ k * 10 ^ k + n % 2 ^ k * 5 ^ k
        = (2 ^ k * (n / 2 ^ k) + n % 2 ^ k) * 5 ^ k := by rw [h10]; ring
      _ = 5 ^ k * n := by rw [hn]; ring
  rw [hD]
  unfold decimalValue
  by_cases hk : k = 0
  · subst hk
    simp
  · have hneg : ¬ (0 : Int) ≤ 0 - (k : Int) := by omega
    simp only [hneg, if_false]
    have ht : (-(0 - (k : Int))).toNat = k := by omega
    rw [ht, Rat.mkRat_eq_div]
    have h10 : ((10 : ℚ)) ^ k = 2 ^ k * 5 ^ k := by rw [← mul_pow]; norm_num
    push_cast
    rw [h10]
    field_simp
    ring

/-- Reading back the digits written for a double. -/
theorem parseNumber_showDecimal (q : ℚ) (hq : roundQ q = JsNum.fin q) (rest : List Char)
    (hrest : Delim rest) : parseNumber (showDecimal q ++ rest) = some (JsNum.fin q, rest) := by
  obtain ⟨k, hk⟩ := den_of_double hq
  have hlog : ilog2 q.den = k := by rw [hk, ilog2_pow]
  have hX : q.num.natAbs % q.den * 5 ^ k < 10 ^ k := by
    have h10 : (10 : Nat) ^ k = 2 ^ k * 5 ^ k := by rw [← Nat.mul_pow]
    have hlt : q.num.natAbs % q.den < 2 ^ k := by
      rw [← hk]; exact Nat.mod_lt _ q.den_pos
    rw [h10]
    exact Nat.mul_lt_mul_of_pos_right hlt (by positivity)
  have hd1 : (q.den = 1) ↔ (k = 0) := by
    rw [hk]
    constructor
    · intro h
      by_contra hc
      have : 2 ≤ 2 ^ k := by
        calc 2 = 2 ^ 1 := by norm_num
          _ ≤ 2 ^ k := Nat.pow_le_pow_right (by norm_num) (by omega)
      omega
    · intro h; subst h; rfl
  have hbody : ∀ neg : Bool, (parseDecimal (natDigits (q.num.natAbs / q.den)
      ++ ((if k = 0 then [] else dot :: fixedDigits k (q.num.natAbs % q.den * 5 ^ k)) ++ rest))).map
        (fun p => (roundFrac neg p.1.num.natAbs p.1.den, p.2))
      = some (roundFrac neg q.num.natAbs q.den, rest) := by
    intro neg
    rw [parseDecimal_show _ _ _ _ hX hrest]
    have hv := decimalValue_show q.num.natAbs k
    rw [← hk] at hv
    rw [hv]
    have hcop : Nat.Coprime ((q.num.natAbs : Int)).natAbs ((q.den : Int)).natAbs := by
      rw [Int.natAbs_ofNat, Int.natAbs_ofNat]
      exact q.reduced
    have hnum := Rat.num_div_eq_of_coprime (a := (q.num.natAbs : Int)) (b := (q.den : Int))
      (by exact_mod_cast q.den_pos) hcop
    have hden := Rat.den_div_eq_of_coprime (a := (q.num.natAbs : Int)) (b := (q.den : Int))
      (by exact_mod_cast q.den_pos) hcop
    simp only [Int.cast_natCast] at hnum hden
    simp only [Option.map_some', hnum, Int.natAbs_ofNat]
    have hden2 : ((q.num.natAbs : ℚ) / (q.den : ℚ)).den = q.den := by exact_mod_cast hden
    rw [hden2]
  obtain ⟨c, cs, hnd, hc, hcm, -, -, -⟩ := natDigits_spec (q.num.natAbs / q.den)
  unfold parseNumber showDecimal
  rw [hlog]
  simp only [hd1]
  by_cases hneg : q < 0
  · simp only [hneg, if_true, List.cons_append, List.nil_append, List.head?_cons,
      beq_self_eq_true, List.tail_cons, List.append_assoc]
    rw [hbody true]
    have : roundFrac true q.num.natAbs q.den = roundQ q := by
      unfold roundQ; simp [hneg]
    rw [this, hq]
  · have hh : (((natDigits (q.num.natAbs / q.den)
        ++ (if k = 0 then [] else dot :: fixedDigits k (q.num.natAbs % q.den * 5 ^ k)))
        ++ rest).head? == some minus) = false := by
      rw [hnd]
      simpa using hcm
    simp only [hneg, if_false, List.nil_append]
    rw [hh]
    simp only [Bool.false_eq_true, if_false, List.append_assoc]
    rw [hbody false]
    have : roundFrac false q.num.natAbs q.den = roundQ q := by
      unfold roundQ; simp [hneg]
    rw [this, hq]

end JsonLite

namespace JsonLite

theorem skipWs_cons (c : Char) (cs : List Char) (h : isWs c = false) :
    skipWs (c :: cs) = c :: cs := by
  simp [skipWs, List.dropWhile, h]

/-- How `parseValue` goes on at a character that starts no literal name. -/
theorem parseValue_start (fuel : Nat) (c : Char) (r : List Char) (hc : StartChar c) :
    parseValue (fuel + 1) (c :: r) =
      if c = dq then (parseString r.length r []).map (fun p => (.str p.1, p.2))
      else if c = lbracket then
        match skipWs r with
        | [] => none
        | c1 :: r1 =>
          if c1 = rbracket then some (.arr [], r1)
          else (parseItems fuel (c1 :: r1)).map (fun p => (.arr p.1, p.2))
      else if c = lbrace then
        match skipWs r with
        | [] => none
        | c1 :: r1 =>
          if c1 = rbrace then some (.obj [], r1)
          else (parseFields fuel (c1 :: r1)).map (fun p => (.obj p.1, p.2))
      else (parseNumber (c :: r)).map (fun p => (.num p.1, p.2)) := by
  obtain ⟨hws, hn, ht, hf, -, -, -⟩ := hc
  have h1 : "null".data = ['n', 'u', 'l', 'l'] := rfl
  have h2 : "true".data = ['t', 'r', 'u', 'e'] := rfl
  have h3 : "false".data = ['f', 'a', 'l', 's', 'e'] := rfl
  have hn' : ('n' == c) = false := by simpa using fun h => hn h.symm
  have ht' : ('t' == c) = false := by simpa using fun h => ht h.symm
  have hf' : ('f' == c) = false := by simpa using fun h => hf h.symm
  rw [parseValue]
  simp only [skipWs_cons c r hws, h1, h2, h3, List.isPrefixOf, hn', ht', hf', Bool.false_and,
    Bool.false_eq_true, if_false]

theorem parseValue_null (fuel : Nat) (rest : List Char) :
    parseValue (fuel + 1) ("null".data ++ rest) = some (.null, rest) := by
  have h1 : "null".data = ['n', 'u', 'l', 'l'] := rfl
  rw [parseValue, h1]
  simp [skipWs_cons _ _ (by decide : isWs 'n' = false), List.isPrefixOf]

theorem parseValue_true (fuel : Nat) (rest : List Char) :
    parseValue (fuel + 1) ("true".data ++ rest) = some (.bool true, rest) := by
  have h1 : "null".data = ['n', 'u', 'l', 'l'] := rfl
  have h2 : "true".data = ['t', 'r', 'u', 'e'] := rfl
  rw [parseValue, h1, h2]
  simp [skipWs_cons _ _ (by decide : isWs 't' = false), List.isPrefixOf]

theorem parseValue_false (fuel : Nat) (rest : List Char) :
    parseValue (fuel + 1) ("false".data ++ rest) = some (.bool false, rest) := by
  have h1 : "null".data = ['n', 'u', 'l', 'l'] := rfl
  have h2 : "true".data = ['t', 'r', 'u', 'e'] := rfl
  have h3 : "false".data = ['f', 'a', 'l', 's', 'e'] := rfl
  rw [parseValue, h1, h2, h3]
  simp [skipWs_cons _ _ (by decide : isWs 'f' = false), List.isPrefixOf]

theorem showDecimal_head (q : ℚ) :
    ∃ c r, showDecimal q = c :: r ∧ StartChar c ∧ c ≠ dq ∧ c ≠ lbracket ∧ c ≠ lbrace := by
  obtain ⟨c, cs, hnd, hc, -, hall, -, -⟩ := natDigits_spec (q.num.natAbs / q.den)
  unfold showDecimal
  by_cases hneg : q < 0
  · refine ⟨minus, _, by simp only [hneg, if_true, List.cons_append, List.nil_append,
      List.append_assoc]; rfl, ?_, ?_, ?_, ?_⟩
    · unfold StartChar; decide
    · decide
    · decide
    · decide
  · have hd := hall c (by rw [hnd]; exact List.mem_cons_self _ _)
    refine ⟨c, _, by simp only [hneg, if_false, List.nil_append, hnd, List.cons_append]; rfl,
      hc, ?_, ?_, ?_⟩
    · intro h; subst h; exact absurd hd (by decide)
    · intro h; subst h; exact absurd hd (by decide)
    · intro h; subst h; exact absurd hd (by decide)

theorem render_length_pos (v : JSVal) : 1 ≤ (render v).length := by
  cases v with
  | undefined => simp [render]
  | null => simp [render]
  | bool b => cases b <;> simp [render]
  | num x =>
    cases x with
    | fin q =>
      obtain ⟨c, r, h, -⟩ := showDecimal_head q
      simp [render, renderNum, h]
    | nan => simp [render, renderNum]
    | inf b => simp [render, renderNum]
  | str s => simp [render, quote]
  | arr xs => simp [render]
  | obj fs => simp [render]

theorem Delim.cons_comma (r : List Char) : Delim (comma :: r) := by
  intro c hc
  simp only [List.head?_cons, Option.some.injEq] at hc
  exact Or.inl hc.symm

theorem Delim.cons_rbracket (r : List Char) : Delim (rbracket :: r) := by
  intro c hc
  simp only [List.head?_cons, Option.some.injEq] at hc
  exact Or.inr (Or.inl hc.symm)

theorem Delim.cons_rbrace (r : List Char) : Delim (rbrace :: r) := by
  intro c hc
  simp only [List.head?_cons, Option.some.injEq] at hc
  exact Or.inr (Or.inr hc.symm)

theorem Delim.nil : Delim [] := by
  intro c hc
  cases hc

theorem renderItems_false_cons (x : JSVal) (xs : List JSVal) :
    renderItems false (x :: xs) = comma :: renderItems true (x :: xs) := by
  simp [renderItems]

theorem renderItems_true_cons (x : JSVal) (xs : List JSVal) :
    renderItems true (x :: xs) = render x ++ renderItems false xs := by
  simp [renderItems]

theorem renderFields_true_cons (k : String) (v : JSVal) (fs : List (String × JSVal))
    (hv : v.isData = true) :
    renderFields true ((k, v) :: fs) = quote k ++ (colon :: (render v ++ renderFields false fs)) := by
  cases v <;> first | (simp [JSVal.isData] at hv; done) | simp [renderFields]

theorem renderFields_false_cons (k : String) (v : JSVal) (fs : List (String × JSVal))
    (hv : v.isData = true) :
    renderFields false ((k, v) :: fs) = comma :: renderFields true ((k, v) :: fs) := by
  cases v <;> first | (simp [JSVal.isData] at hv; done) | simp [renderFields]

theorem addField_new (k : String) (v : JSVal) (fs : List (String × JSVal))
    (h : fs.all (fun p => p.1 != k) = true) : addField k v fs = (k, v) :: fs := by
  have hl : fs.lookup k = none := by
    rw [List.lookup_eq_none_iff]
    intro p hp
    have h1 := List.all_eq_true.1 h p hp
    have h2 : p.1 ≠ k := by simpa using h1
    simpa using fun hc => h2 hc.symm
  unfold addField
  rw [hl]

end JsonLite

namespace JsonLite

theorem render_head : ∀ v : JSVal, v.isData = true →
    ∃ c r, render v = c :: r ∧ isWs c = false ∧ c ≠ rbracket ∧ c ≠ rbrace := by
  intro v hv
  cases v with
  | undefined => simp [JSVal.isData] at hv
  | null => exact ⟨'n', _, rfl, by decide, by decide, by decide⟩
  | bool b =>
    cases b
    · exact ⟨'f', _, rfl, by decide, by decide, by decide⟩
    · exact ⟨'t', _, rfl, by decide, by decide, by decide⟩
  | num x =>
    cases x with
    | fin q =>
      obtain ⟨c, r, h, hs, -⟩ := showDecimal_head q
      exact ⟨c, r, by simp [render, renderNum, h], hs.1, hs.2.2.2.2.2.1, hs.2.2.2.2.2.2⟩
    | nan => simp [JSVal.isData] at hv
    | inf b => simp [JSVal.isData] at hv
  | str s => exact ⟨dq, _, by rw [render, quote], by decide, by decide, by decide⟩
  | arr xs => exact ⟨lbracket, _, by rw [render], by decide, by decide, by decide⟩
  | obj fs => exact ⟨lbrace, _, by rw [render], by decide, by decide, by decide⟩

mutual
/-- Reading back a serialized data value. -/
theorem parseValue_render : ∀ (v : JSVal), v.isData = true → ∀ (fuel : Nat) (rest : List Char),
    Delim rest → (render v).length ≤ fuel → parseValue fuel (render v ++ rest) = some (v, rest)
  | .undefined, hv, _, _, _, _ => by simp [JSVal.isData] at hv
  | .null, _, fuel, rest, _, hf => by
    obtain ⟨f, rfl⟩ : ∃ f, fuel = f + 1 := ⟨fuel - 1, by simp [render] at hf; omega⟩
    exact parseValue_null f rest
  | .bool true, _, fuel, rest, _, hf => by
    obtain ⟨f, rfl⟩ : ∃ f, fuel = f + 1 := ⟨fuel - 1, by simp [render] at hf; omega⟩
    exact parseValue_true f rest
  | .bool false, _, fuel, rest, _, hf => by
    obtain ⟨f, rfl⟩ : ∃ f, fuel = f + 1 := ⟨fuel - 1, by simp [render] at hf; omega⟩
    exact parseValue_false f rest
  | .num .nan, hv, _, _, _, _ => by simp [JSVal.isData] at hv
  | .num (.inf _), hv, _, _, _, _ => by simp [JSVal.isData] at hv
  | .num (.fin q), hv, fuel, rest, hd, hf => by
    have hq : roundQ q = JsNum.fin q := by simpa [JSVal.isData] using hv
    have hpos := render_length_pos (.num (.fin q))
    obtain ⟨f, rfl⟩ : ∃ f, fuel = f + 1 := ⟨fuel - 1, by omega⟩
    obtain ⟨c, r, hc, hs, h1, h2, h3⟩ := showDecimal_head q
    have hr : render (.num (.fin q)) = showDecimal q := by simp [render, renderNum]
    have hnum := parseNumber_showDecimal q hq rest hd
    rw [hr]
    rw [hc] at hnum ⊢
    rw [List.cons_append, parseValue_start f c _ hs]
    rw [List.cons_append] at hnum
    simp only [h1, h2, h3, if_false, hnum, Option.map_some']
  | .str s, _, fuel, rest, _, hf => by
    obtain ⟨f, rfl⟩ : ∃ f, fuel = f + 1 := ⟨fuel - 1, by simp [render, quote] at hf; omega⟩
    have hr : render (.str s) ++ rest = dq :: (escape s.data ++ dq :: rest) := by
      simp [render, quote]
    rw [hr, parseValue_start f dq _ (by unfold StartChar; decide)]
    simp only [if_true, parseString_quote, Option.map_some']
  | .arr [], _, fuel, rest, _, hf => by
    obtain ⟨f, rfl⟩ : ∃ f, fuel = f + 1 := ⟨fuel - 1, by simp [render] at hf; omega⟩
    have hr : render (.arr []) ++ rest = lbracket :: rbracket :: rest := by
      simp [render, renderItems]
    rw [hr, parseValue_start f lbracket _ (by unfold StartChar; decide)]
    have h1 : lbracket ≠ dq := by decide
    simp only [h1, if_false, if_true, skipWs_cons rbracket rest (by decide)]
  | .arr (x :: xs), hv, fuel, rest, _, hf => by
    have hi : JSVal.isDataItems (x :: xs) = true := by simpa [JSVal.isData] using hv
    have hx : x.isData = true := by
      simp only [JSVal.isDataItems, Bool.and_eq_true] at hi
      exact hi.1
    have hlen : (render (.arr (x :: xs))).length = (renderItems true (x :: xs)).length + 2 := by
      simp [render]
    obtain ⟨f, rfl⟩ : ∃ f, fuel = f + 1 := ⟨fuel - 1, by omega⟩
    have hr : render (.arr (x :: xs)) ++ rest
        = lbracket :: (renderItems true (x :: xs) ++ rbracket :: rest) := by
      simp [render]
    obtain ⟨c, r, hc, hws, hnb, -⟩ := render_head x hx
    have hitems := parseItems_render (x :: xs) hi (by simp) f rest (by omega)
    rw [hr, parseValue_start f lbracket _ (by unfold StartChar; decide)]
    have h1 : lbracket ≠ dq := by decide
    rw [renderItems_true_cons, hc] at hitems ⊢
    simp only [List.cons_append] at hitems ⊢
    simp only [h1, if_false, if_true, skipWs_cons c _ hws, hnb, hitems, Option.map_some']
  | .obj [], _, fuel, rest, _, hf => by
    obtain ⟨f, rfl⟩ : ∃ f, fuel = f + 1 := ⟨fuel - 1, by simp [render] at hf; omega⟩
    have hr : render (.obj []) ++ rest = lbrace :: rbrace :: rest := by
      simp [render, renderFields]
    rw [hr, parseValue_start f lbrace _ (by unfold StartChar; decide)]
    have h1 : lbrace ≠ dq := by decide
    have h2 : lbrace ≠ lbracket := by decide
    simp only [h1, h2, if_false, if_true, skipWs_cons rbrace rest (by decide)]
  | .obj ((k, v) :: fs), hv, fuel, rest, _, hf => by
    have hi : JSVal.isDataFields ((k, v) :: fs) = true := by simpa [JSVal.isData] using hv
    have hx : v.isData = true := by
      simp only [JSVal.isDataFields, Bool.and_eq_true] at hi
      exact hi.1.1
    have hlen : (render (.obj ((k, v) :: fs))).length
        = (renderFields true ((k, v) :: fs)).length + 2 := by
      simp [render]
    obtain ⟨f, rfl⟩ : ∃ f, fuel = f + 1 := ⟨fuel - 1, by omega⟩
    have hr : render (.obj ((k, v) :: fs)) ++ rest
        = lbrace :: (renderFields true ((k, v) :: fs) ++ rbrace :: rest) := by
      simp [render]
    have hfields := parseFields_render ((k, v) :: fs) hi (by simp) f rest (by omega)
    rw [hr, parseValue_start f lbrace _ (by unfold StartChar; decide)]
    have h1 : lbrace ≠ dq := by decide
    have h2 : lbrace ≠ lbracket := by decide
    have h3 : dq ≠ rbrace := by decide
    rw [renderFields_true_cons k v fs hx] at hfields ⊢
    simp only [quote, List.cons_append] at hfields ⊢
    simp only [h1, h2, h3, if_false, if_true, skipWs_cons dq _ (by decide), hfields,
      Option.map_some']
/-- Reading back the serialized elements of a non-empty array. -/
theorem parseItems_render : ∀ (xs : List JSVal), JSVal.isDataItems xs = true → xs ≠ [] →
    ∀ (fuel : Nat) (rest : List Char), (renderItems true xs).length + 1 ≤ fuel →
      parseItems fuel (renderItems true xs ++ rbracket :: rest) = some (xs, rest)
  | [], _, hne, _, _, _ => absurd rfl hne
  | [x], hi, _, fuel, rest, hf => by
    have hx : x.isData = true := by
      simp only [JSVal.isDataItems, Bool.and_eq_true] at hi
      exact hi.1
    obtain ⟨f, rfl⟩ : ∃ f, fuel = f + 1 := ⟨fuel - 1, by omega⟩
    have hr : renderItems true [x] ++ rbracket :: rest = render x ++ rbracket :: rest := by
      simp [renderItems]
    have hl : (renderItems true [x]).length = (render x).length := by simp [renderItems]
    have hval := parseValue_render x hx f (rbracket :: rest) (Delim.cons_rbracket rest) (by omega)
    have h1 : rbracket ≠ comma := by decide
    rw [hr, parseItems, hval]
    simp only [skipWs_cons rbracket rest (by decide), h1, if_false, if_true]
  | x :: y :: ys, hi, _, fuel, rest, hf => by
    have hx : x.isData = true ∧ JSVal.isDataItems (y :: ys) = true := by
      simpa [JSVal.isDataItems] using hi
    obtain ⟨f, rfl⟩ : ∃ f, fuel = f + 1 := ⟨fuel - 1, by omega⟩
    have hr : renderItems true (x :: y :: ys) ++ rbracket :: rest
        = render x ++ comma :: (renderItems true (y :: ys) ++ rbracket :: rest) := by
      rw [renderItems_true_cons, renderItems_false_cons]
      simp
    have hl : (renderItems true (x :: y :: ys)).length
        = (render x).length + 1 + (renderItems true (y :: ys)).length := by
      rw [renderItems_true_cons, renderItems_false_cons]
      simp
      omega
    have hpos := render_length_pos x
    have hval := parseValue_render x hx.1 f (comma :: (renderItems true (y :: ys) ++ rbracket :: rest))
      (Delim.cons_comma _) (by omega)
    have hrec := parseItems_render (y :: ys) hx.2 (by simp) f rest (by omega)
    rw [hr, parseItems, hval]
    simp only [skipWs_cons comma _ (by decide), if_true, hrec, Option.map_some']
/-- Reading back the serialized properties of a non-empty object. -/
theorem parseFields_render : ∀ (fs : List (String × JSVal)), JSVal.isDataFields fs = true →
    fs ≠ [] → ∀ (fuel : Nat) (rest : List Char), (renderFields true fs).length + 1 ≤ fuel →
      parseFields fuel (renderFields true fs ++ rbrace :: rest) = some (fs, rest)
  | [], _, hne, _, _, _ => absurd rfl hne
  | [(k, v)], hi, _, fuel, rest, hf => by
    have hx : v.isData = true := by
      simp only [JSVal.isDataFields, Bool.and_eq_true] at hi
      exact hi.1.1
    obtain ⟨f, rfl⟩ : ∃ f, fuel = f + 1 := ⟨fuel - 1, by omega⟩
    have hr : renderFields true [(k, v)] ++ rbrace :: rest
        = dq :: (escape k.data ++ dq :: colon :: (render v ++ rbrace :: rest)) := by
      rw [renderFields_true_cons k v [] hx]
      simp [quote, renderFields]
    have hl : (render v).length ≤ (renderFields true [(k, v)]).length := by
      rw [renderFields_true_cons k v [] hx]
      simp
      omega
    have hval := parseValue_render v hx f (rbrace :: rest) (Delim.cons_rbrace rest) (by omega)
    have h1 : rbrace ≠ comma := by decide
    rw [hr, parseFields]
    simp only [skipWs_cons dq _ (by decide), if_true, parseString_quote,
      skipWs_cons colon _ (by decide), hval, skipWs_cons rbrace rest (by decide), h1, if_false]
  | (k, v) :: (k2, v2) :: fs, hi, _, fuel, rest, hf => by
    have hx : (v.isData = true ∧ ((k2, v2) :: fs).all (fun p => p.1 != k) = true)
        ∧ JSVal.isDataFields ((k2, v2) :: fs) = true := by
      simpa only [JSVal.isDataFields, Bool.and_eq_true] using hi
    have hv2 : v2.isData = true := by
      have := hx.2
      simp only [JSVal.isDataFields, Bool.and_eq_true] at this
      exact this.1.1
    obtain ⟨f, rfl⟩ : ∃ f, fuel = f + 1 := ⟨fuel - 1, by omega⟩
    have hr : renderFields true ((k, v) :: (k2, v2) :: fs) ++ rbrace :: rest
        = dq :: (escape k.data ++ dq :: colon :: (render v ++ comma ::
            (renderFields true ((k2, v2) :: fs) ++ rbrace :: rest))) := by
      rw [renderFields_true_cons k v _ hx.1.1, renderFields_false_cons k2 v2 fs hv2]
      simp [quote]
    have hl : (render v).length + 1 + (renderFields true ((k2, v2) :: fs)).length
        ≤ (renderFields true ((k, v) :: (k2, v2) :: fs)).length := by
      rw [renderFields_true_cons k v _ hx.1.1, renderFields_false_cons k2 v2 fs hv2]
      simp
      omega
    have hval := parseValue_render v hx.1.1 f
      (comma :: (renderFields true ((k2, v2) :: fs) ++ rbrace :: rest)) (Delim.cons_comma _)
      (by omega)
    have hrec := parseFields_render ((k2, v2) :: fs) hx.2 (by simp) f rest (by omega)
    rw [hr, parseFields]
    simp only [skipWs_cons dq _ (by decide), if_true, parseString_quote,
      skipWs_cons colon _ (by decide), hval, skipWs_cons comma _ (by decide), hrec,
      Option.map_some', addField_new k v _ hx.1.2]
end

/-- The concrete codec reads back every data value it writes. -/
theorem parse_stringify (v : JSVal) (hv : v.isData = true) :
    ∃ t, stringify v = some t ∧ parse t = some v := by
  refine ⟨String.mk (render v), ?_, ?_⟩
  · cases v <;> first | rfl | simp [JSVal.isData] at hv
  · have h := parseValue_render v hv ((render v).length + 1) [] Delim.nil (by omega)
    rw [List.append_nil] at h
    unfold parse
    simp only [String.length, h]
    simp [skipWs]

end JsonLite

/-- `UI.login` succeeds exactly when some record carries the trimmed email and the trimmed
typed secret; the session user is then the first such record. -/
theorem login_done_iff (email pass : String) (s : App) :
    ((UI.login email pass s).2 = Outcome.done
        ↔ ∃ u ∈ s.db.users, u.email = trim email ∧ u.pass = trim pass)
      ∧ (UI.login email pass s).1.db = s.db
      ∧ ((UI.login email pass s).2 ≠ Outcome.done → (UI.login email pass s).1 = s) := by
  cases hf : s.db.users.find? (fun u => u.email == trim email && u.pass == trim pass) with
  | none =>
    have hl : UI.login email pass s = (s, Outcome.inlineError "Invalid credentials") := by
      simp only [UI.login, hf]
    rw [hl]
    refine ⟨⟨fun h => Outcome.noConfusion h, ?_⟩, rfl, fun _ => rfl⟩
    rintro ⟨u, hu, he, hp⟩
    have := List.find?_eq_none.1 hf u hu
    simp [he, hp] at this
  | some u =>
    have hl : UI.login email pass s = ({ s with user := some u }, Outcome.done) := by
      simp only [UI.login, hf]
    rw [hl]
    refine ⟨⟨fun _ => ?_, fun _ => rfl⟩, rfl, fun h => absurd rfl h⟩
    have hu := List.mem_of_find?_eq_some hf
    have hp := List.find?_some hf
    simp only [Bool.and_eq_true, beq_iff_eq] at hp
    exact ⟨u, hu, hp.1, hp.2⟩

/-- What registration followed by login does when the secret carries no white space at
either end: for a non-blank name and email and a trimmed email carried by no record, the
registration completes and the login sets the new record as session user. -/
theorem register_then_login_of_trimmed (now : Nat → Int) (name email role pass : String)
    (s : App) (hn : trim name ≠ "") (he : trim email ≠ "") (hp : pass ≠ "")
    (hpt : trim pass = pass) (hnew : ∀ u ∈ s.db.users, u.email ≠ trim email) :
    (UI.register now name email role pass s).2 = Outcome.done
      ∧ (UI.login email pass (UI.register now name email role pass s).1).2 = Outcome.done
      ∧ (UI.login email pass (UI.register now name email role pass s).1).1.user
          = some { id := now 0, name := trim name, email := trim email, role := role,
                   pass := pass, rewards := 0 } := by
  have hany : s.db.users.any (fun u => u.email == trim email) = false := by
    rw [List.any_eq_false]
    intro u hu
    simpa using hnew u hu
  have hreg : UI.register now name email role pass s =
      ({ s with db := { s.db with users := s.db.users ++
          [{ id := now 0, name := trim name, email := trim email, role := role, pass := pass,
             rewards := 0 }] } }, Outcome.done) := by
    simp [UI.register, hn, he, hp, hany]
  have hfind : s.db.users.find? (fun u => u.email == trim email && u.pass == trim pass) = none := by
    rw [List.find?_eq_none]
    intro u hu
    simp [hnew u hu]
  rw [hpt] at hfind
  rw [hreg]
  refine ⟨rfl, ?_, ?_⟩ <;>
    simp [UI.login, List.find?_append, hfind, hpt, List.find?]

/-- The plumbing of the store around any JSON functions: a value other than `null` and
`undefined` whose text reads back as itself is read back from the store. -/
theorem Store.read_write_of_parse (J : JsonApi) (ls : LocalStorage) (key : String) (v d : JSVal)
    (hrt : ∃ t, J.stringify v = some t ∧ J.parse t = some v)
    (hn : v ≠ JSVal.null) (hu : v ≠ JSVal.undefined) :
    Store.read J (Store.write J ls key v) key d = v := by
  obtain ⟨t, hs, hp⟩ := hrt
  simp only [Store.read, Store.write, LocalStorage.setItem, hs, if_true, Option.getD_some, hp]
  cases v with
  | undefined => exact absurd rfl hu
  | null => exact absurd rfl hn
  | _ => rfl

theorem JSVal.ne_undefined_of_isData {v : JSVal} (h : v.isData = true) : v ≠ JSVal.undefined := by
  intro hc
  subst hc
  simp [JSVal.isData] at h

/-! ## Claims -/

/-- C1 (as stated) fails. After two registrations that read the same clock value the
second registrant, Cat, is logged in and has a record in `users`; her payment of 250
completes, yet her record still holds 0 points and the session becomes Bob, with 2 points.
And a payment of 60000000000000096 by a user holding 0 points leaves 600000000000001
points, one more than `floor(60000000000000096 / 100)`, because the quotient is rounded to
a double before the floor is taken. -/
theorem pay_credits_rewards_counterexample :
    (Reachable (UI.runAll sameClockLogin seededApp)
        ∧ (∃ su ∈ (UI.runAll sameClockLogin seededApp).db.users,
            (UI.runAll sameClockLogin seededApp).user = some su ∧ su.name = "Cat"
              ∧ su.rewards = 0)
        ∧ (UI.pay sampleHost sampleClock "Collection" "250"
            (UI.runAll sameClockLogin seededApp)).2 = Outcome.done
        ∧ ((UI.pay sampleHost sampleClock "Collection" "250"
            (UI.runAll sameClockLogin seededApp)).1.db.users.filter
              (fun u => u.name == "Cat")).map User.rewards = [0]
        ∧ ((UI.pay sampleHost sampleClock "Collection" "250"
            (UI.runAll sameClockLogin seededApp)).1.user).map (fun u => (u.name, u.rewards))
              = some ("Bob", 2))
      ∧ (parseInt "60000000000000096" = some (Num.fin 60000000000000096)
        ∧ Int.fdiv 60000000000000096 100 = 600000000000000
        ∧ (UI.pay sampleHost sampleClock "Collection" "60000000000000096" annApp).1.db.users.map
            User.rewards = [Num.fin 600000000000001]
        ∧ ((UI.pay sampleHost sampleClock "Collection" "60000000000000096" annApp).1.user).map
            User.rewards = some (Num.fin 600000000000001)) := by
  refine ⟨⟨Reachable.runAll _ Reachable.seeded, ?_⟩, ?_⟩
  · decide!
  · decide!

/-- C1 (amended). A payment through `UI.pay` with a purpose other than `Fine` and a parsed
amount `A` (non-zero, so that the payment is made), by a logged-in user `su` whose record is
the one stored under its id in `users`, with the amount and the resulting balance inside
the safe-integer range, raises that user's reward points by exactly `floor(A / 100)` both
in the `users` collection and in the session snapshot, and appends exactly one transaction
with amount `A` and that user's id to `transactions`. -/
theorem pay_credits_rewards (host : Host) (now : Nat → Int) (purpose amt : String) (s : App)
    (su : User) (r A : Int)
    (hs : s.user = some su)
    (hu : s.db.users.find? (fun x => x.id == su.id) = some su)
    (hr : su.rewards = Num.fin r)
    (hA : parseInt amt = some (Num.fin A)) (hA0 : A ≠ 0)
    (hAs : A.natAbs < 2 ^ 53) (hbs : (r + ⌊(A : ℚ) / 100⌋).natAbs < 2 ^ 53)
    (hp : purpose ≠ "Fine") :
    (UI.pay host now purpose amt s).1.db.users.find? (fun x => x.id == su.id)
        = some { su with rewards := Num.fin (r + ⌊(A : ℚ) / 100⌋) }
      ∧ (UI.pay host now purpose amt s).1.user
        = some { su with rewards := Num.fin (r + ⌊(A : ℚ) / 100⌋) }
      ∧ (UI.pay host now purpose amt s).1.db.transactions
          = s.db.transactions ++
            [{ id := now 0, uid := su.id, purpose := purpose, amount := Num.fin A, ts := now 1 }]
      ∧ (UI.pay host now purpose amt s).2 = Outcome.done := by
  rw [← fdiv_hundred_eq_floor] at hbs ⊢
  rw [pay_nonFine_safe host now purpose amt s su su r A hs hu hr hA hA0 hAs hbs hp]
  refine ⟨?_, rfl, rfl, rfl⟩
  exact find?_updateFirst_same (fun x : User => x.id == su.id) _ s.db.users su hu (by simp)

/-- C1, scenario of the specification: a payment of 250 with purpose `Collection` by a
user holding 0 reward points leaves 2 reward points in the store and in the session, and
one transaction of amount 250. -/
theorem pay_credits_rewards_witness :
    ((UI.pay sampleHost sampleClock "Collection" "250" annApp).1.db.users.find?
        (fun x => x.id == ann.id)).map User.rewards = some 2
      ∧ ((UI.pay sampleHost sampleClock "Collection" "250" annApp).1.user).map User.rewards
          = some 2
      ∧ (UI.pay sampleHost sampleClock "Collection" "250" annApp).1.db.transactions.map
          Transaction.amount = [250] := by
  have hf : ⌊((250 : Int) : ℚ) / 100⌋ = 2 := by
    rw [← fdiv_hundred_eq_floor]; decide
  have h := pay_credits_rewards sampleHost sampleClock "Collection" "250" annApp ann 0 250 rfl
    (by decide) rfl (by decide!) (by decide) (by decide) (by rw [hf]; decide) (by decide)
  rw [hf] at h
  refine ⟨?_, ?_, ?_⟩
  · rw [h.1]; rfl
  · rw [h.2.1]; rfl
  · rw [h.2.2.1]; rfl

/-- C2. A registration attempt through `UI.register` whose (trimmed) email is already the
email of a record in `users` fails with an alert, and leaves the `users` collection, and
the whole application state, unchanged. -/
theorem register_existing_email_fails (now : Nat → Int) (name email role pass : String)
    (s : App) (h : ∃ u ∈ s.db.users, u.email = trim email) :
    (UI.register now name email role pass s).1 = s
      ∧ (UI.register now name email role pass s).1.db.users.length = s.db.users.length
      ∧ ((UI.register now name email role pass s).2 = Outcome.alert "Email already exists"
          ∨ (UI.register now name email role pass s).2 = Outcome.alert "Fill all fields") := by
  obtain ⟨u, hu, he⟩ := h
  have hany : s.db.users.any (fun u => u.email == trim email) = true := by
    rw [List.any_eq_true]
    exact ⟨u, hu, by simp [he]⟩
  unfold UI.register
  by_cases hf : trim name = "" ∨ trim email = "" ∨ pass = ""
  · simp [hf]
  · simp [hf, hany]

/-- C2 at a concrete input: registering the email of `ann` again leaves the single-user
store as it is. -/
theorem register_existing_email_fails_witness :
    (UI.register sampleClock "Other" " ann@x.com " "user" "secret" annApp).1 = annApp
      ∧ (UI.register sampleClock "Other" " ann@x.com " "user" "secret" annApp).1.db.users.length = 1 := by
  have h := register_existing_email_fails sampleClock "Other" " ann@x.com " "user" "secret"
    annApp ⟨ann, by decide, by decide⟩
  exact ⟨h.1, h.2.1⟩

/-- C3. Registration stores the secret as typed while login trims the typed secret before
comparing: after registering Ann with the secret ` Passw0rd` (a leading space), which
completes and stores that secret, the login with the same email and the same secret shows
`Invalid credentials` and sets no session user, and so does the login with the secret
without the space; conversely the seeded secret `1234` is accepted when typed with a
trailing space.  The scenario of the specification, with the secret `Passw0rd`, logs in
with 0 reward points. -/
theorem register_then_login_untrimmed_secret :
    (UI.register sampleClock "Ann" "ann@x.com" "user" " Passw0rd" emptyApp).2 = Outcome.done
      ∧ (UI.register sampleClock "Ann" "ann@x.com" "user" " Passw0rd" emptyApp).1.db.users.map
          User.pass = [" Passw0rd"]
      ∧ (UI.login "ann@x.com" " Passw0rd"
          (UI.register sampleClock "Ann" "ann@x.com" "user" " Passw0rd" emptyApp).1).2
          = Outcome.inlineError "Invalid credentials"
      ∧ (UI.login "ann@x.com" " Passw0rd"
          (UI.register sampleClock "Ann" "ann@x.com" "user" " Passw0rd" emptyApp).1).1.user = none
      ∧ (UI.login "ann@x.com" "Passw0rd"
          (UI.register sampleClock "Ann" "ann@x.com" "user" " Passw0rd" emptyApp).1).2
          = Outcome.inlineError "Invalid credentials"
      ∧ ((UI.login "user@.com" "1234 " seededApp).2 = Outcome.done
        ∧ ((UI.login "user@.com" "1234 " seededApp).1.user).map User.pass = some "1234")
      ∧ ((UI.login "ann@x.com" "Passw0rd"
          (UI.register sampleClock "Ann" "ann@x.com" "user" "Passw0rd" emptyApp).1).1.user).map
            User.rewards = some 0 := by
  decide

/-- C4 (as stated) fails: the amount `-250` is negative, yet `UI.pay` accepts it, appends a
transaction of amount -250 and changes the payer's reward points from 0 to -3. -/
theorem pay_negative_amount_counterexample :
    parseInt "-250" = some (Num.fin (-250))
      ∧ (UI.pay sampleHost sampleClock "Collection" "-250" annApp).2 = Outcome.done
      ∧ (UI.pay sampleHost sampleClock "Collection" "-250" annApp).1.db.transactions
          = [{ id := 1700000000000, uid := 7, purpose := "Collection", amount := Num.fin (-250),
               ts := 1700000000001 }]
      ∧ (UI.pay sampleHost sampleClock "Collection" "-250" annApp).1.db.users.map User.rewards
          = [Num.fin (-3)] := by
  decide!

/-- C4 (amended). For every amount input that is empty, does not parse, or parses to zero,
`UI.pay` rejects the payment with the alert `Enter amount`: no transaction is appended, no
user's reward points change, and the whole application state is as before. -/
theorem pay_rejects_zero_or_unparsable (host : Host) (now : Nat → Int) (purpose amt : String)
    (s : App) (h : amt = "" ∨ parseInt amt = none ∨ parseInt amt = some 0) :
    (UI.pay host now purpose amt s).2 = Outcome.alert "Enter amount"
      ∧ (UI.pay host now purpose amt s).1.db.transactions = s.db.transactions
      ∧ (UI.pay host now purpose amt s).1.db.users = s.db.users
      ∧ (UI.pay host now purpose amt s).1 = s := by
  rw [pay_rejects host now purpose amt s h]
  exact ⟨rfl, rfl, rfl, rfl⟩

/-- C4 at concrete inputs: the amounts `0` and `abc` are rejected and leave the state as it
was. -/
theorem pay_rejects_zero_or_unparsable_witness :
    (UI.pay sampleHost sampleClock "Collection" "0" annApp).1 = annApp
      ∧ (UI.pay sampleHost sampleClock "Collection" "abc" annApp).1 = annApp := by
  exact ⟨(pay_rejects_zero_or_unparsable sampleHost sampleClock "Collection" "0" annApp
      (Or.inr (Or.inr (by decide!)))).2.2.2,
    (pay_rejects_zero_or_unparsable sampleHost sampleClock "Collection" "abc" annApp
      (Or.inr (Or.inl (by decide)))).2.2.2⟩

/-- C5 (as stated) fails. In the seeded store itself the user with id 1 holds 40 reward
points and has no transaction. After two registrations that read the same clock value,
the second registrant pays 250: the credit goes to the first record carrying that id, so
the payer's record holds 0 points against a transaction sum of 2. And after the seeded
user pays 60000000000000096 its record holds 600000000000041 points, one more than the
seed balance plus `floor(60000000000000096 / 100)`. -/
theorem reachable_rewards_counterexample :
    (Reachable seededApp
        ∧ ∃ u ∈ seededApp.db.users, u.id = 1 ∧ u.rewards = 40
            ∧ rewardSum u.id seededApp.db.transactions = 0)
      ∧ (Reachable (UI.runAll sameClockTrace seededApp)
        ∧ ∃ u ∈ (UI.runAll sameClockTrace seededApp).db.users, u.name = "Cat" ∧ u.rewards = 0
            ∧ rewardSum u.id (UI.runAll sameClockTrace seededApp).db.transactions = 2)
      ∧ (Reachable (UI.runAll largeAmountTrace seededApp)
        ∧ ∃ u ∈ (UI.runAll largeAmountTrace seededApp).db.users, u.id = 1
            ∧ u.rewards = Num.fin 600000000000041
            ∧ seedRewards u.id + rewardSum u.id (UI.runAll largeAmountTrace seededApp).db.transactions
                = 600000000000040) := by
  refine ⟨⟨Reachable.seeded, ?_⟩, ⟨Reachable.runAll _ Reachable.seeded, ?_⟩,
    ⟨Reachable.runAll _ Reachable.seeded, ?_⟩⟩
  · decide
  · decide!
  · decide!

/-- C5 (amended). In every state reachable from the seeded store by any sequence of domain
operations whose ledger is inside the safe-integer range (every amount a finite number,
and 40 plus the absolute amounts of all transactions below `2 ^ 53`), the record stored
under each identifier in `users` (which is every record, when identifiers are unique) has
reward points equal to its seed balance (40 for the seeded user with id 1, 0 otherwise)
plus the sum of `floor(amount / 100)` over all transactions of that user whose purpose is
not `Fine`. -/
theorem reachable_rewards_balance (s : App) (h : Reachable s)
    (hsafe : SafeLedger s.db.transactions) :
    (∀ u, s.db.users.find? (fun x => x.id == u.id) = some u →
        u.rewards = Num.fin (seedRewards u.id + rewardSum u.id s.db.transactions))
      ∧ ((s.db.users.map User.id).Nodup → ∀ u ∈ s.db.users,
        u.rewards = Num.fin (seedRewards u.id + rewardSum u.id s.db.transactions)) := by
  have hinv := RewardInv.of_reachable h hsafe
  refine ⟨fun u hu => hinv.balance u.id u hu, fun hnd u hu => ?_⟩
  exact hinv.balance u.id u (find?_id_of_nodup s.db.users hnd u hu)

/-- C5 at a concrete state: after the seeded user logs in and pays 250, its record holds
42 points, the seed balance 40 plus the credited 2. -/
theorem reachable_rewards_balance_witness :
    (UI.runAll paidTrace seededApp).db.users.map User.rewards = [42, 0]
      ∧ Num.fin 42
          = Num.fin (seedRewards 1 + rewardSum 1 (UI.runAll paidTrace seededApp).db.transactions)
      ∧ Num.fin 0
          = Num.fin (seedRewards 2 + rewardSum 2 (UI.runAll paidTrace seededApp).db.transactions) := by
  have h := (reachable_rewards_balance (UI.runAll paidTrace seededApp)
    (Reachable.runAll paidTrace Reachable.seeded) (by decide!)).2 (by decide!)
  exact ⟨by decide!,
    h { id := 1, name := "User", email := "user@.com", role := "user", pass := "1234",
        rewards := 42 } (by decide!),
    h { id := 2, name := "Admin", email := "admin@.com", role := "admin", pass := "admin123",
        rewards := 0 } (by decide!)⟩

/-- C6. The seed initializer is idempotent: for every content of `localStorage`, running
`seed` twice leaves the storage, hence each of the eight collections as `Store.read`
returns it, identical to the state after running it once; a baseline written by the first
run is not written a second time on top of new content, nor duplicated. -/
theorem seed_idempotent (J : JsonApi) (ls : LocalStorage) :
    seed J (seed J ls) = seed J ls
      ∧ ∀ key d, Store.read J (seed J (seed J ls)) key d = Store.read J (seed J ls) key d := by
  have hfun : seed J (seed J ls) = seed J ls := by
    funext x
    have h2 := seedSteps_apply J seedTable seedTable_nodup ls x
    have h1 := seedSteps_apply J seedTable seedTable_nodup (seedSteps J seedTable ls) x
    show seedSteps J seedTable (seedSteps J seedTable ls) x = seedSteps J seedTable ls x
    cases hl : seedTable.lookup x with
    | none =>
      rw [hl] at h1
      exact h1
    | some b =>
      rw [hl] at h1 h2
      have h1' : seedSteps J seedTable (seedSteps J seedTable ls) x
          = seedKey J x b (seedSteps J seedTable ls) x := h1
      have h2' : seedSteps J seedTable ls x = seedKey J x b ls x := h2
      rw [h1', seedKey_congr J x b h2', seedKey_idem_at, h2']
  refine ⟨hfun, ?_⟩
  intro key d
  rw [hfun]

/-- C7 (as stated) fails. `Store.write` stores the text `null` for the value `null`, and
`Store.read` with default `[]` then returns `[]`, because `JSON.parse(...) ?? def` replaces
a parsed `null` by the default.  The value `undefined` is stored as the text `undefined`,
which does not parse, so the default comes back.  Inside a value, `JSON.stringify` writes
an `undefined` element, `NaN` and the infinities as `null` and skips a property whose value
is `undefined`, so these are read back as `null`, or not at all. -/
theorem store_roundtrip_counterexample :
    (jsonLite.stringify JSVal.null = some "null"
        ∧ Store.read jsonLite (Store.write jsonLite emptyStorage "k" JSVal.null) "k" (JSVal.arr [])
            = JSVal.arr []
        ∧ Store.read jsonLite (Store.write jsonLite emptyStorage "k" JSVal.null) "k" (JSVal.arr [])
            ≠ JSVal.null)
      ∧ (Store.read jsonLite (Store.write jsonLite emptyStorage "k" JSVal.undefined) "k"
            (JSVal.arr []) = JSVal.arr []
        ∧ JSVal.arr [] ≠ JSVal.undefined)
      ∧ (Store.read jsonLite (Store.write jsonLite emptyStorage "k"
            (JSVal.arr [JSVal.undefined])) "k" (JSVal.arr []) = JSVal.arr [JSVal.null]
        ∧ JSVal.arr [JSVal.null] ≠ JSVal.arr [JSVal.undefined])
      ∧ (Store.read jsonLite (Store.write jsonLite emptyStorage "k"
            (JSVal.obj [("a", JSVal.undefined)])) "k" (JSVal.arr []) = JSVal.obj []
        ∧ JSVal.obj [] ≠ JSVal.obj [("a", JSVal.undefined)])
      ∧ (Store.read jsonLite (Store.write jsonLite emptyStorage "k"
            (JSVal.arr [JSVal.num JsNum.nan, JSVal.num (JsNum.inf false)])) "k" (JSVal.arr [])
          = JSVal.arr [JSVal.null, JSVal.null]
        ∧ JSVal.arr [JSVal.null, JSVal.null]
          ≠ JSVal.arr [JSVal.num JsNum.nan, JSVal.num (JsNum.inf false)]) := by
  refine ⟨⟨rfl, rfl, ?_⟩, ⟨rfl, by simp⟩, ⟨rfl, by simp⟩, ⟨rfl, by simp⟩, ⟨rfl, by simp⟩⟩
  have h : Store.read jsonLite (Store.write jsonLite emptyStorage "k" JSVal.null) "k" (JSVal.arr [])
      = JSVal.arr [] := rfl
  rw [h]
  exact fun hc => JSVal.noConfusion hc

/-- C7 (amended). For every key, every default and every value other than `null` that is
made of `null`, booleans, finite numbers, strings, arrays and objects (no `undefined`, `NaN`
or infinity anywhere in it), `Store.write(key, value)` followed by `Store.read(key,
default)` yields the original value: the text that `JSON.stringify` writes is read back by
`JSON.parse` as the same value. -/
theorem store_roundtrip (ls : LocalStorage) (key : String) (v d : JSVal)
    (hv : v.isData = true) (hn : v ≠ JSVal.null) :
    Store.read jsonLite (Store.write jsonLite ls key v) key d = v :=
  Store.read_write_of_parse jsonLite ls key v d (JsonLite.parse_stringify v hv) hn
    (JSVal.ne_undefined_of_isData hv)

/-- C7 at a concrete value: the `captures` array holding a capture of 2.5 kilograms,
written to an empty storage, is read back unchanged. -/
theorem store_roundtrip_witness :
    Store.read jsonLite
        (Store.write jsonLite emptyStorage "captures" (JSVal.arr [Capture.toJson halfCapture]))
        "captures" (JSVal.arr [])
      = JSVal.arr [Capture.toJson halfCapture] :=
  store_roundtrip emptyStorage "captures" (JSVal.arr [Capture.toJson halfCapture])
    (JSVal.arr []) (by decide!) (fun hc => JSVal.noConfusion hc)

/-- C8 (as stated) fails when the stored text is `null`: the text parses, to the value
`null`, yet `Store.read` returns the default `[]` and not the deserialized value. -/
theorem store_read_counterexample :
    sampleStorage "captures" = some "null"
      ∧ jsonLite.parse "null" = some JSVal.null
      ∧ Store.read jsonLite sampleStorage "captures" (JSVal.arr []) = JSVal.arr []
      ∧ Store.read jsonLite sampleStorage "captures" (JSVal.arr []) ≠ JSVal.null := by
  refine ⟨rfl, rfl, rfl, ?_⟩
  have h : Store.read jsonLite sampleStorage "captures" (JSVal.arr []) = JSVal.arr [] := rfl
  rw [h]
  exact fun hc => JSVal.noConfusion hc

/-- C8 (amended). `Store.read(key, default)` always returns a value: the default when the key
is absent, when the stored text fails to parse, or when it parses to `null`; and the
deserialized value whenever the text parses to a value other than `null` and
`undefined`. -/
theorem store_read_default (J : JsonApi) (ls : LocalStorage) (key : String) (d : JSVal) :
    (ls key = none → Store.read J ls key d = d)
      ∧ (∀ t, ls key = some t → J.parse t = none → Store.read J ls key d = d)
      ∧ (∀ t, ls key = some t → J.parse t = some JSVal.null → Store.read J ls key d = d)
      ∧ (∀ t v, ls key = some t → J.parse t = some v → v ≠ JSVal.null → v ≠ JSVal.undefined →
          Store.read J ls key d = v)
      ∧ (Store.read J ls key d = d
          ∨ ∃ t v, ls key = some t ∧ J.parse t = some v ∧ Store.read J ls key d = v) := by
  refine ⟨?_, ?_, ?_, ?_, ?_⟩
  · intro h
    simp [Store.read, h, J.parse_null, JSVal.orElse]
  · intro t h hp
    simp [Store.read, h, hp]
  · intro t h hp
    simp [Store.read, h, hp, JSVal.orElse]
  · intro t v h hp hn hu
    simp only [Store.read, h, Option.getD_some, hp]
    cases v with
    | undefined => exact absurd rfl hu
    | null => exact absurd rfl hn
    | _ => rfl
  · cases h : ls key with
    | none => left; simp [Store.read, h, J.parse_null, JSVal.orElse]
    | some t =>
      cases hp : J.parse t with
      | none => left; simp [Store.read, h, hp]
      | some v =>
        cases v with
        | undefined => left; simp [Store.read, h, hp, JSVal.orElse]
        | null => left; simp [Store.read, h, hp, JSVal.orElse]
        | _ => right; exact ⟨t, _, rfl, hp, by simp [Store.read, h, hp, JSVal.orElse]⟩

/-- C8 at concrete inputs: an absent key and a truncated text give the default, a well-formed
text gives its value. -/
theorem store_read_default_witness :
    Store.read jsonLite sampleStorage "bookings" (JSVal.arr []) = JSVal.arr []
      ∧ Store.read jsonLite sampleStorage "users" (JSVal.arr []) = JSVal.arr []
      ∧ Store.read jsonLite sampleStorage "tickets" (JSVal.arr [])
          = JSVal.arr [JSVal.num 1, JSVal.num 2] := by
  have hb := store_read_default jsonLite sampleStorage "bookings" (JSVal.arr [])
  have hu := store_read_default jsonLite sampleStorage "users" (JSVal.arr [])
  have ht := store_read_default jsonLite sampleStorage "tickets" (JSVal.arr [])
  exact ⟨hb.1 rfl, hu.2.1 "[1," rfl rfl,
    ht.2.2.2.1 "[1, 2]" (JSVal.arr [JSVal.num 1, JSVal.num 2]) rfl rfl
      (fun hc => JSVal.noConfusion hc) (fun hc => JSVal.noConfusion hc)⟩

/-- C9 (as stated) fails: a negative weight and a negative amount are malformed, yet
`UI.capture` with the weight `-5` and `UI.pay` with the amount `-250` run to completion,
appending a capture of -5 kilograms, a transaction and a notification each. -/
theorem invalid_input_counterexample :
    (parseFloat "-5" = JsNum.fin (-5)
        ∧ (UI.capture sampleHost sampleClock "2024-05-01" "Dry" "-5" annApp).2 = Outcome.done
        ∧ (UI.capture sampleHost sampleClock "2024-05-01" "Dry" "-5" annApp).1.db.captures.map
            Capture.kg = [some (-5)]
        ∧ (UI.capture sampleHost sampleClock "2024-05-01" "Dry" "-5"
            annApp).1.db.notifications.length = 1)
      ∧ ((UI.pay sampleHost sampleClock "Collection" "-250" annApp).2 = Outcome.done
        ∧ (UI.pay sampleHost sampleClock "Collection" "-250" annApp).1.db.transactions.length = 1
        ∧ (UI.pay sampleHost sampleClock "Collection" "-250"
            annApp).1.db.notifications.length = 1) := by
  decide!

/-- C9 (amended). Whenever a required field of register, addBooking, pay, capture or
raiseTicket is missing (empty, or blank where the operation trims it), or a number field
does not parse or parses to zero, the operation aborts without completing and the whole
state, every collection of the store and the session, is unchanged; in particular no
ticket and no notification is appended. -/
theorem invalid_input_atomic (a : Action) (s : App) (h : a.missingInput) :
    (UI.run a s).1 = s
      ∧ (UI.run a s).2 ≠ Outcome.done
      ∧ (UI.run a s).1.db.tickets = s.db.tickets
      ∧ (UI.run a s).1.db.notifications = s.db.notifications := by
  have key : (UI.run a s).1 = s ∧ (UI.run a s).2 ≠ Outcome.done := by
    cases a with
    | register now n e r p =>
      have h1 : trim n = "" ∨ trim e = "" ∨ p = "" := h
      simp [UI.run, UI.register, h1]
    | login e p => exact absurd h (by simp [Action.missingInput])
    | logout => exact absurd h (by simp [Action.missingInput])
    | addBooking host now d t f ad =>
      have h1 : d = "" ∨ trim ad = "" := h
      simp [UI.run, UI.addBooking, h1]
    | pay host now p amt =>
      have h1 : amt = "" ∨ parseInt amt = none ∨ parseInt amt = some 0 := h
      simp [UI.run, pay_rejects host now p amt s h1]
    | capture host now d t k =>
      have h1 : d = "" ∨ k = "" ∨ (parseFloat k).isFalsy = true := h
      simp [UI.run, capture_rejects host now d t k s h1]
    | raiseTicket now r m =>
      have h1 : trim m = "" := h
      simp [UI.run, UI.raiseTicket, h1]
    | completeModule now id => exact absurd h (by simp [Action.missingInput])
  refine ⟨key.1, key.2, ?_, ?_⟩ <;> rw [key.1]

/-- C9, scenario of the specification: raising a ticket with blank text appends no ticket
and no notification; and a weight that underflows to zero is rejected. -/
theorem invalid_input_atomic_witness :
    (UI.raiseTicket sampleClock 0 "   " annApp).1.db.tickets = []
      ∧ (UI.raiseTicket sampleClock 0 "   " annApp).1.db.notifications = []
      ∧ (UI.raiseTicket sampleClock 0 "" annApp).1 = annApp
      ∧ (UI.capture sampleHost sampleClock "2024-05-01" "Dry" "1e-400" annApp).1 = annApp := by
  have hb : (Action.raiseTicket sampleClock 0 "   ").missingInput := by
    show trim "   " = ""
    decide
  have he : (Action.raiseTicket sampleClock 0 "").missingInput := by
    show trim "" = ""
    decide
  have hc : (Action.capture sampleHost sampleClock "2024-05-01" "Dry" "1e-400").missingInput := by
    show "2024-05-01" = "" ∨ "1e-400" = "" ∨ (parseFloat "1e-400").isFalsy = true
    decide!
  have h1 := invalid_input_atomic (Action.raiseTicket sampleClock 0 "   ") annApp hb
  have h2 := invalid_input_atomic (Action.raiseTicket sampleClock 0 "") annApp he
  have h3 := invalid_input_atomic
    (Action.capture sampleHost sampleClock "2024-05-01" "Dry" "1e-400") annApp hc
  exact ⟨h1.2.2.1, h1.2.2.2, h2.1, h3.1⟩

/-- C10. For every captures collection and logged-in user, `UI.drawChart` draws one bar for
each of the last `min(10, n)` capture entries of that user (`n` being the number of that
user's captures), in stored order, and the height of each bar is `weight / M * 120`, where
the denominator `M` is the maximum weight among those entries and never below 1. -/
theorem drawChart_bars (s : App) (u : User) (hs : s.user = some u) :
    (chartWindow (capturesOf s u)).length = min 10 (capturesOf s u).length
      ∧ UI.drawChart s
          = (List.range (chartWindow (capturesOf s u)).length).zipWith
              (fun i c => chartBar (chartScale (chartWindow (capturesOf s u))) i c)
              (chartWindow (capturesOf s u))
      ∧ (UI.drawChart s).map Rect.h
          = (chartWindow (capturesOf s u)).map
              (fun c => c.weight / chartScale (chartWindow (capturesOf s u)) * 120)
      ∧ 1 ≤ chartScale (chartWindow (capturesOf s u))
      ∧ (∀ c ∈ chartWindow (capturesOf s u), c.weight ≤ chartScale (chartWindow (capturesOf s u)))
      ∧ (chartScale (chartWindow (capturesOf s u)) = 1
          ∨ ∃ c ∈ chartWindow (capturesOf s u),
              c.weight = chartScale (chartWindow (capturesOf s u))) := by
  have hfilter : s.db.captures.filter (fun c => some c.uid == s.user.map User.id)
      = capturesOf s u := by
    rw [hs]
    apply List.filter_congr
    intro c _
    simp
  have hwin : lastN 10 (capturesOf s u) = chartWindow (capturesOf s u) := by
    unfold lastN chartWindow
    congr 1
    omega
  have hdraw : UI.drawChart s
      = drawBars (chartScale (chartWindow (capturesOf s u))) 40 (chartWindow (capturesOf s u)) := by
    unfold UI.drawChart
    simp only [hfilter, hwin, foldl_max_eq_foldr]
    rfl
  refine ⟨?_, ?_, ?_, chartScale_spec _⟩
  · unfold chartWindow
    rw [List.length_drop]
    omega
  · rw [hdraw]
    have h := drawBars_eq (chartScale (chartWindow (capturesOf s u))) 0 (chartWindow (capturesOf s u))
    simp only [Nat.cast_zero, mul_zero, add_zero, Nat.zero_add] at h
    exact h
  · rw [hdraw, drawBars_heights]

/-- C10 at a concrete store: of twelve captures weighing 1 to 12 kilograms the chart shows
the last ten, scaled against 12. -/
theorem drawChart_bars_witness :
    (capturesOf chartApp ann).length = 12
      ∧ (UI.drawChart chartApp).map Rect.h = [30, 40, 50, 60, 70, 80, 90, 100, 110, 120] := by
  have h := drawChart_bars chartApp ann rfl
  have hw : chartWindow (capturesOf chartApp ann)
      = [sampleCapture 2, sampleCapture 3, sampleCapture 4, sampleCapture 5, sampleCapture 6,
         sampleCapture 7, sampleCapture 8, sampleCapture 9, sampleCapture 10, sampleCapture 11] := by
    rfl
  have hsc : chartScale (chartWindow (capturesOf chartApp ann)) = 12 := by
    rw [hw]
    simp [chartScale, Capture.weight, sampleCapture]
    norm_num
  refine ⟨rfl, ?_⟩
  rw [h.2.2.1, hsc, hw]
  simp [Capture.weight, sampleCapture]
  norm_num

/-- C11. The next date shown by `UI.renderKPI` is the date of the first upcoming booking in
stored order, not the earliest one: after the seeded user books a pickup for 10 May 2030 and
then one for 1 January 2030, both upcoming in November 2023, the KPI counts 2 upcoming
bookings and shows 10 May 2030 as next date, although 1 January 2030 is earlier. -/
theorem renderKPI_next_date_first_stored :
    (UI.runAll lateFirstTrace seededApp).db.bookings.map Booking.date = ["2030-05-10", "2030-01-01"]
      ∧ isoDateValue "2030-05-10" = some 1904601600000
      ∧ isoDateValue "2030-01-01" = some 1893456000000
      ∧ (∀ k, k < 2 → sampleClock k ≤ 1893456000000)
      ∧ UI.renderKPI sampleHost isoDateValue sampleClock (UI.runAll lateFirstTrace seededApp)
          = some { kpiUpcoming := 2, kpiNextDate := "2030-05-10", kpiRewards := 40, kpiTx := 0,
                   kpiFines := "No fines" } := by
  refine ⟨by decide, by decide, by decide, ?_, by decide⟩
  intro k hk
  unfold sampleClock
  omega

end WasteApp
